import Mathlib

/-! protoc-gen-swiftwirp: filename derivation, request pipeline, marshal flags

A shallow embedding of the Go sources of the Twirp client generator

* `generator/generator.go`: `dartFilename`, `twirpFilename`
* `main.go`: `generate`, `getParameters`
* `generator/client_test.go`: the data model used by `ApplyMarshalFlags`

Go strings are embedded as Lean `String`s; the only bytes the embedded code
inspects are the ASCII delimiters `/`, `.`, `,` and `=`, which are single
characters in both views, so byte offsets and character offsets coincide at
every place where the code cuts a string.
-/

set_option autoImplicit false

/-! ## The Go standard library functions the sources call -/

namespace GoPath

/-- Go `bytealg.LastIndexByteString(s, c)`: the index of the last `c` in `s`,
or `-1`.  The second argument is the number of bytes still to scan. -/
def lastIndexByte (s : List Char) (c : Char) : Nat → Int
  | 0 => -1
  | i + 1 => if s[i]? = some c then (i : Int) else lastIndexByte s c i

/-- The loop of Go `path.Ext`:
`for i := len(path) - 1; i >= 0 && path[i] != '/'; i-- { if path[i] == '.' { return path[i:] } }`.
The counter is `i + 1`, so that `0` stands for `i = -1`. -/
def extLoop (path : List Char) : Nat → List Char
  | 0 => []
  | i + 1 =>
    match path[i]? with
    | none => []
    | some c =>
      if c = '/' then []
      else if c = '.' then path.drop i
      else extLoop path i

/-- Go `path.Ext`: the suffix beginning at the final dot in the final
slash-separated element of `path`; empty if there is no dot. -/
def Ext (path : String) : String :=
  ⟨extLoop path.data path.data.length⟩

/-- The loop `for len(path) > 0 && path[len(path)-1] == '/' { path = path[0 : len(path)-1] }`
of Go `path.Base`; the argument is the current `len(path)`. -/
def stripTrailingSlashes (path : List Char) : Nat → List Char
  | 0 => []
  | n + 1 => if path[n]? = some '/' then stripTrailingSlashes path n else path.take (n + 1)

/-- Go `path.Base`: the last element of `path`, after removing trailing slashes;
`"."` for the empty path and `"/"` for a path of slashes only. -/
def Base (path : String) : String :=
  if path = "" then "."
  else
    let p1 := stripTrailingSlashes path.data path.data.length
    let i := lastIndexByte p1 '/' p1.length
    let p2 := if 0 ≤ i then p1.drop (i + 1).toNat else p1
    if p2 = [] then "/" else ⟨p2⟩

/-- Go `path.Split`: `i := LastIndexByteString(path, '/'); return path[:i+1], path[i+1:]`. -/
def Split (path : String) : String × String :=
  let i := lastIndexByte path.data '/' path.data.length
  (⟨path.data.take (i + 1).toNat⟩, ⟨path.data.drop (i + 1).toNat⟩)

/-- The backtracking loop of Go `path.Clean` for a `..` element, entered after
the first `out.w--`: `for out.w > dotdot && out.index(out.w) != '/' { out.w-- }`.
The argument is the current `out.w`; the result is the final `out.w`. -/
def backtrack (out : List Char) (dotdot : Nat) : Nat → Nat
  | 0 => 0
  | w + 1 =>
    if dotdot < w + 1 ∧ out[w + 1]? ≠ some '/' then backtrack out dotdot w else w + 1

/-- The main loop `for r < n { switch ... }` of Go `path.Clean`.  `rest` is
`path[r:]`, `out` is the written part `buf[:w]` of the lazy buffer, and every
iteration consumes at least one byte of `rest`, so `len(path)` iterations
always suffice (`cleanLoop_fuel`). -/
def cleanLoop (rooted : Bool) : Nat → List Char → List Char → Nat → List Char
  | 0, _, out, _ => out
  | fuel + 1, rest, out, dotdot =>
    match rest with
    | [] => out
    | c :: t =>
      if c = '/' then
        -- empty path element
        cleanLoop rooted fuel t out dotdot
      else if c = '.' ∧ (t = [] ∨ t.head? = some '/') then
        -- . element
        cleanLoop rooted fuel t out dotdot
      else if c = '.' ∧ t.head? = some '.' ∧ (t.tail = [] ∨ t.tail.head? = some '/') then
        -- .. element: remove to last /
        if dotdot < out.length then
          cleanLoop rooted fuel t.tail (out.take (backtrack out dotdot (out.length - 1))) dotdot
        else if !rooted then
          let out1 := (if 0 < out.length then out ++ ['/'] else out) ++ ['.', '.']
          cleanLoop rooted fuel t.tail out1 out1.length
        else
          cleanLoop rooted fuel t.tail out dotdot
      else
        -- real path element: add slash if needed, copy element
        let out1 :=
          if (rooted && out.length != 1) || (!rooted && out.length != 0) then out ++ ['/'] else out
        cleanLoop rooted fuel (t.dropWhile (fun x => x ≠ '/'))
          (out1 ++ c :: t.takeWhile (fun x => x ≠ '/')) dotdot

/-- Go `path.Clean`: the shortest path name equivalent to `path` by purely
lexical processing. -/
def Clean (path : String) : String :=
  if path = "" then "."
  else
    let rooted := path.data.head? = some '/'
    let out := cleanLoop rooted path.data.length
      (if rooted then path.data.drop 1 else path.data) (if rooted then ['/'] else [])
      (if rooted then 1 else 0)
    if out = [] then "." else ⟨out⟩

/-- Go `path.Dir`: `dir, _ := Split(path); return Clean(dir)`. -/
def Dir (path : String) : String :=
  Clean (Split path).1

/-- The accumulation loop of Go `path.Join`: an element is appended when the
buffer is non-empty or the element is non-empty, preceded by `/` when the
buffer is non-empty. -/
def joinBuf (buf : List Char) : List String → List Char
  | [] => buf
  | e :: es =>
    if buf ≠ [] ∨ e ≠ "" then
      joinBuf ((if buf ≠ [] then buf ++ ['/'] else buf) ++ e.data) es
    else joinBuf buf es

/-- Go `path.Join`: joins the elements with slashes, ignoring empty elements,
and cleans the result; `""` when every element is empty. -/
def Join (elem : List String) : String :=
  if (elem.map String.length).sum = 0 then ""
  else Clean ⟨joinBuf [] elem⟩

end GoPath

/-- Go slice expression `s[:hi]` on a string: fails (index out of range) unless
`0 ≤ hi ≤ len(s)`. -/
def sliceTo (s : String) (hi : Int) : Option String :=
  if 0 ≤ hi ∧ hi ≤ (s.length : Int) then some ⟨s.data.take hi.toNat⟩ else none

/-! ## generator/generator.go -/

/-- Source `dartFilename` (generator.go 12-21). -/
def dartFilename (name : String) : Option String :=
  let ext := GoPath.Ext name
  if ext = ".proto" ∨ ext = ".protodevel" then
    let base := GoPath.Base name
    (sliceTo base ((base.length : Int) - ((GoPath.Ext base).length : Int))).map
      (fun name => name ++ ".model.swift")
  else
    some (name ++ ".model.swift")

/-- Source `twirpFilename` (generator.go 23-32). -/
def twirpFilename (pfx fullPath : String) : Option String :=
  let ext := GoPath.Ext fullPath
  let name : Option String :=
    if ext = ".proto" ∨ ext = ".protodevel" then
      let base := GoPath.Base fullPath
      sliceTo base ((base.length : Int) - ((GoPath.Ext base).length : Int))
    else
      some ""
  name.map (fun name =>
    let name := pfx ++ "." ++ name
    let name := name ++ ".twirp.swift"
    GoPath.Join [GoPath.Dir fullPath, name])

/-! ## main.go -/

/-- The piece loop of Go `strings.Split(s, sep)` for a one-byte separator: the
pieces are the maximal runs between separators, so a string without the
separator gives one piece and `n` separators give `n + 1` pieces. -/
def splitChars (sep : Char) : List Char → List (List Char)
  | [] => [[]]
  | c :: cs =>
    if c = sep then [] :: splitChars sep cs
    else
      match splitChars sep cs with
      | [] => [[c]]
      | p :: ps => (c :: p) :: ps

/-- Go `strings.Split(s, sep)` with `sep` a single byte. -/
def stringsSplit (s : String) (sep : Char) : List String :=
  (splitChars sep s.data).map String.mk

/-- Source `type Params map[string]string` (main.go 89): a Go map, kept as
an association list with at most one entry per key. -/
abbrev Params := List (String × String)

/-- Go map assignment `params[k] = v`. -/
def Params.set : Params → String → String → Params
  | [], k, v => [(k, v)]
  | (k1, v1) :: rest, k, v =>
    if k1 = k then (k, v) :: rest else (k1, v1) :: Params.set rest k v

/-- Go map read `v, ok := params[k]`. -/
def Params.get : Params → String → Option String
  | [], _ => none
  | (k1, v1) :: rest, k => if k1 = k then some v1 else Params.get rest k

/-- The keys of a Go map. -/
def Params.keys (m : Params) : List String := m.map Prod.fst

/-- The descriptor of one service (`descriptor.ServiceDescriptorProto`); only
its presence matters to `generate`. -/
structure ServiceDescriptorProto where
  Name : Option String
deriving DecidableEq, Repr

/-- The fields of `descriptor.FileDescriptorProto` the sources read.  `Name`
and `Package` are `*string`; `Service` is a slice, `none` being the nil slice. -/
structure FileDescriptorProto where
  Name : Option String
  Package : Option String
  Service : Option (List ServiceDescriptorProto)
deriving DecidableEq, Repr

/-- The fields of `plugin_go.CodeGeneratorRequest` the sources read. -/
structure CodeGeneratorRequest where
  FileToGenerate : List String
  Parameter : Option String
  ProtoFile : List FileDescriptorProto
deriving DecidableEq, Repr

/-- One generated file (`plugin_go.CodeGeneratorResponse_File`). -/
structure CodeGeneratorResponse_File where
  Name : Option String
  Content : Option String
deriving DecidableEq, Repr

/-- The response (`plugin_go.CodeGeneratorResponse`): `Error` is a `*string`. -/
structure CodeGeneratorResponse where
  Error : Option String
  File : List CodeGeneratorResponse_File
deriving DecidableEq, Repr

/-- Source `dartModuleFilename` (generator.go 8-10): `twirpFilename(*f.Package, *f.Name)`;
`none` is the nil-pointer panic of either dereference. -/
def dartModuleFilename (f : FileDescriptorProto) : Option String :=
  match f.Package, f.Name with
  | some pkg, some name => twirpFilename pkg name
  | _, _ => none

/-- The loop `for _, f := range in.GetProtoFile()` of source `generate`
(main.go 54-70), threading `resp`.  `CreateClientAPI` is the renderer of the
generator package, taken as a parameter: it returns a file record or the
message of an error.  `none` is the nil-pointer panic of `*f.Name`. -/
def generateLoop (CreateClientAPI : FileDescriptorProto → Except String CodeGeneratorResponse_File) :
    List FileDescriptorProto → CodeGeneratorResponse → Option CodeGeneratorResponse
  | [], resp => some resp
  | f :: fs, resp =>
    match f.Name with
    | none => none
    | some name =>
      -- skip google/protobuf/timestamp
      if name = "google/protobuf/timestamp.proto" then generateLoop CreateClientAPI fs resp
      -- generate service only
      else if f.Service = none then generateLoop CreateClientAPI fs resp
      else
        match CreateClientAPI f with
        | .error err => some { resp with Error := some err }
        | .ok cf => generateLoop CreateClientAPI fs { resp with File := resp.File ++ [cf] }

/-- The part of the gogo generator (`gogogen`, an external library) that source
`generate` drives before its loop, taken as a parameter: `G` is the state of
the generator `gen`.  Each set-up step returns the generator, or `none` when
the library exits the process or panics in it (as `WrapTypes` does when
`FileToGenerate` names a file absent from `ProtoFile`, and `SetPackageNames`
when `FileToGenerate` is empty). -/
structure GogoGenerator (G : Type) where
  New : G
  SetRequest : G → CodeGeneratorRequest → G
  WrapTypes : G → Option G
  SetPackageNames : G → Option G
  BuildTypeNameMap : G → Option G

/-- The set-up of source `generate` (main.go 49-53): `gen := gogogen.New()`,
`gen.Request = in`, `gen.WrapTypes()`, `gen.SetPackageNames()`,
`gen.BuildTypeNameMap()`; `none` when one of the calls aborts. -/
def generateSetUp {G : Type} (lib : GogoGenerator G) (req : CodeGeneratorRequest) : Option G :=
  let gen := lib.New
  let gen := lib.SetRequest gen req
  match lib.WrapTypes gen with
  | none => none
  | some gen =>
    match lib.SetPackageNames gen with
    | none => none
    | some gen => lib.BuildTypeNameMap gen

/-- Source `generate` (main.go 46-75): the set-up of the generator, then the
loop over `in.GetProtoFile()` with `generator.CreateClientAPI(f, gen)` as the
renderer.  `none` when the set-up aborts or the loop panics: no response is
returned. -/
def generate {G : Type} (lib : GogoGenerator G)
    (CreateClientAPI : FileDescriptorProto → G → Except String CodeGeneratorResponse_File)
    (req : CodeGeneratorRequest) : Option CodeGeneratorResponse :=
  match generateSetUp lib req with
  | none => none
  | some gen =>
    generateLoop (fun f => CreateClientAPI f gen) req.ProtoFile { Error := none, File := [] }

/-- The loop `for _, pair := range pairs` of source `getParameters`
(main.go 100-103); `none` is the index-out-of-range panic of `kv[1]`. -/
def getParametersLoop : List String → Params → Option Params
  | [], params => some params
  | pair :: pairs, params =>
    let kv := stringsSplit pair '='
    match kv[0]?, kv[1]? with
    | some k, some v => getParametersLoop pairs (params.set k v)
    | _, _ => none

/-- Source `getParameters` (main.go 91-106). -/
def getParameters (req : CodeGeneratorRequest) : Option Params :=
  match req.Parameter with
  | none => some []
  | some parameter => getParametersLoop (stringsSplit parameter ',') []

/-! ## generator/client_test.go: the API model and `ApplyMarshalFlags` -/

/-- One field of a Model (the `ModelField` literals of the test). -/
structure ModelField where
  Name : String
  Type_ : String
  IsMessage : Bool
deriving DecidableEq, Repr

/-- A named message type (the `Model` literals of the test); both flags
default to false, the fields to none. -/
structure Model where
  Name : String
  CanMarshal : Bool := false
  CanUnmarshal : Bool := false
  Fields : List ModelField := []
deriving DecidableEq, Repr

/-- One RPC method (the `ServiceMethod` literal of the test). -/
structure ServiceMethod where
  Name : String
  InputArg : String
  InputType : String
  OutputType : String
deriving DecidableEq, Repr

/-- A named RPC service (the `Service` literal of the test). -/
structure Service where
  Name : String
  Package : String
  Methods : List ServiceMethod
deriving DecidableEq, Repr

/-- The registry of one generation run: the Models in insertion order, each
registered under its name, and the Services. -/
structure APIContext where
  Models : List Model
  Services : List Service
deriving DecidableEq, Repr

/-- Modelled from the spec: the two capability flags of a Model, `CanMarshal`
and `CanUnmarshal`, as a selector, so that the symmetric steps are written once. -/
inductive FlagKind where
  | marshal
  | unmarshal
deriving DecidableEq, Repr

/-- Modelled from the spec: reads `CanMarshal` or `CanUnmarshal`. -/
def Model.flag (m : Model) : FlagKind → Bool
  | .marshal => m.CanMarshal
  | .unmarshal => m.CanUnmarshal

/-- Modelled from the spec: sets `CanMarshal = true` or `CanUnmarshal = true`. -/
def Model.setFlag (m : Model) : FlagKind → Model
  | .marshal => { m with CanMarshal := true }
  | .unmarshal => { m with CanUnmarshal := true }

/-- Modelled from the spec: the type a method seeds with a flag, `InputType`
for `CanMarshal` and `OutputType` for `CanUnmarshal`. -/
def ServiceMethod.seedType (meth : ServiceMethod) : FlagKind → String
  | .marshal => meth.InputType
  | .unmarshal => meth.OutputType

/-- Modelled from the spec: `NewAPIContext` is not among the sources; a fresh
Context has no Models and no Services. -/
def NewAPIContext : APIContext := { Models := [], Services := [] }

/-- Modelled from the spec: `AddModel` is not among the sources; it inserts
`m` into the registry under `m.Name`, preserving first-seen order. -/
def APIContext.AddModel (ctx : APIContext) (m : Model) : APIContext :=
  { ctx with Models := ctx.Models ++ [m] }

/-- Modelled from the spec: the registry lookup behind `Lookup(name)`, on the
list of Models: the Model registered under `name`, or not found. -/
def lookupModel (ms : List Model) (name : String) : Option Model :=
  ms.find? (fun m => m.Name = name)

/-- Modelled from the spec: `Lookup` is not among the sources; it returns the
Model registered under `name`, or not found if the name is absent. -/
def APIContext.Lookup (ctx : APIContext) (name : String) : Option Model :=
  lookupModel ctx.Models name

/-- Modelled from the spec: the in-place flag update "mark it true" on the
Model registered under `name`. -/
def markModel (fl : FlagKind) (name : String) : List Model → List Model
  | [] => []
  | m :: ms => if m.Name = name then m.setFlag fl :: ms else m :: markModel fl name ms

/-- Modelled from the spec: the seed step for one method: look up `InputType`
in the registry; if found, mark it `CanMarshal = true`; look up `OutputType`;
if found, mark it `CanUnmarshal = true`; unknown names are skipped. -/
def seedMethod (ms : List Model) (meth : ServiceMethod) : List Model :=
  let ms1 :=
    match lookupModel ms meth.InputType with
    | some _ => markModel .marshal meth.InputType ms
    | none => ms
  match lookupModel ms1 meth.OutputType with
  | some _ => markModel .unmarshal meth.OutputType ms1
  | none => ms1

/-- Modelled from the spec: the seed phase, for every Service, for every
ServiceMethod. -/
def seedFlags (svcs : List Service) (ms : List Model) : List Model :=
  svcs.foldl (fun ms s => s.Methods.foldl seedMethod ms) ms

/-- Modelled from the spec: the propagation step for one field `f` of a flagged
Model: if `f.IsMessage`, look up the Model `N` named `f.Type_`; if found and its
flag is false, set it true and add `N` to the work set of the round.  The
state is the registry and the work set. -/
def visitField (fl : FlagKind) (st : List Model × List String) (f : ModelField) :
    List Model × List String :=
  if f.IsMessage then
    match lookupModel st.1 f.Type_ with
    | some n => if n.flag fl then st else (markModel fl f.Type_ st.1, st.2 ++ [f.Type_])
    | none => st
  else st

/-- Modelled from the spec: the propagation step for the `i`-th Model `M` of
the registry: if `M` currently has the flag, visit each of its fields. -/
def visitModel (fl : FlagKind) (st : List Model × List String) (i : Nat) :
    List Model × List String :=
  match st.1[i]? with
  | some m => if m.flag fl then m.Fields.foldl (visitField fl) st else st
  | none => st

/-- Modelled from the spec: one full pass of the propagation phase over the
registry, returning the registry and the work set of Models whose flag changed
in the pass. -/
def propagatePass (fl : FlagKind) (ms : List Model) : List Model × List String :=
  (List.range ms.length).foldl (visitModel fl) (ms, [])

/-- Modelled from the spec: "repeat until no Model's flags change in a full
pass".  The spec bounds the number of rounds by the number of Models; `rounds`
is that budget, and `propagateFlags_stable` shows the loop always leaves through
the pass that changes nothing. -/
def propagateFlags (fl : FlagKind) : Nat → List Model → List Model
  | 0, ms => ms
  | rounds + 1, ms =>
    match propagatePass fl ms with
    | (ms1, []) => ms1
    | (ms1, _ :: _) => propagateFlags fl rounds ms1

/-- Modelled from the spec: `ApplyMarshalFlags` is not among the sources (only
its test is).  Seed phase, then the propagation phase for `CanMarshal` and,
independently, for `CanUnmarshal`; the only effect is on the flags of the
Context's Models. -/
def APIContext.ApplyMarshalFlags (ctx : APIContext) : APIContext :=
  let ms0 := seedFlags ctx.Services ctx.Models
  let ms1 := propagateFlags .marshal (ms0.length + 1) ms0
  let ms2 := propagateFlags .unmarshal (ms1.length + 1) ms1
  { ctx with Models := ms2 }

/-! ### The context of `TestAPIContext_ApplyMarshalFlags` -/

namespace ClientTest

/-- Test value `nested`. -/
def nested : Model := { Name := "Nested" }

/-- Test value `bar`. -/
def bar : Model :=
  { Name := "Bar", CanMarshal := true,
    Fields := [{ Name := "nested", Type_ := nested.Name, IsMessage := true }] }

/-- Test value `baz`. -/
def baz : Model := { Name := "Baz", CanUnmarshal := true }

/-- Test value `call`. -/
def call : ServiceMethod :=
  { Name := "Call", InputArg := "bar", InputType := "Bar", OutputType := "Baz" }

/-- Test value `s`. -/
def s : Service := { Name := "FooService", Package := "", Methods := [call] }

/-- Test value `ctx`, after the three `AddModel` calls and the `append` to
`ctx.Services`. -/
def ctx : APIContext :=
  let c := ((NewAPIContext.AddModel nested).AddModel bar).AddModel baz
  { c with Services := c.Services ++ [s] }

end ClientTest


/-! ### Predicates used to state the properties of `generate` -/

/-- A file of the request for which `generate` calls the renderer: it is not
the timestamp file and declares a service. -/
def eligibleFile (f : FileDescriptorProto) : Bool :=
  f.Name ≠ some "google/protobuf/timestamp.proto" && f.Service ≠ none

/-- The records the renderer produces for the eligible files of a list, in
order. -/
def renderedFiles
    (CreateClientAPI : FileDescriptorProto → Except String CodeGeneratorResponse_File)
    (fs : List FileDescriptorProto) : List CodeGeneratorResponse_File :=
  (fs.filter eligibleFile).filterMap (fun f => (CreateClientAPI f).toOption)


/-! ### A request whose second file fails -/

namespace FailFastExample

/-- A file declaring one service. -/
def file (name : String) : FileDescriptorProto :=
  { Name := some name, Package := some "svc", Service := some [{ Name := some "Foo" }] }

/-- A generator library for the examples.  The generator holds the request;
`WrapTypes` aborts when a name of `FileToGenerate` is not the name of a file
of `ProtoFile`, and `SetPackageNames` aborts when `FileToGenerate` is empty. -/
def lib : GogoGenerator CodeGeneratorRequest :=
  { New := { FileToGenerate := [], Parameter := none, ProtoFile := [] },
    SetRequest := fun _ req => req,
    WrapTypes := fun gen =>
      if gen.FileToGenerate.all (fun n => gen.ProtoFile.any (fun f => f.Name.getD "" = n))
      then some gen else none,
    SetPackageNames := fun gen => if gen.FileToGenerate = [] then none else some gen,
    BuildTypeNameMap := fun gen => some gen }

/-- A renderer that fails on `two.proto` and succeeds on every other file. -/
def render (f : FileDescriptorProto) (_gen : CodeGeneratorRequest) :
    Except String CodeGeneratorResponse_File :=
  if f.Name = some "two.proto" then .error "two.proto: unsupported"
  else .ok { Name := f.Name, Content := some "// generated" }

/-- A request of three eligible files. -/
def req : CodeGeneratorRequest :=
  { FileToGenerate := ["one.proto", "two.proto", "three.proto"], Parameter := none,
    ProtoFile := [file "one.proto", file "two.proto", file "three.proto"] }

end FailFastExample


/-! ### Predicates used to state the properties of `ApplyMarshalFlags` -/

/-- The invariant of the data model: Model names are unique within a Context. -/
def APIContext.UniqueNames (ctx : APIContext) : Prop :=
  (ctx.Models.map Model.Name).Nodup

/-- The name `n` is registered and seeded with the flag: its Model has the
flag beforehand, or it is the `InputType` (for `CanMarshal`; the `OutputType`
for `CanUnmarshal`) of some method of some Service. -/
def APIContext.Seeded (ctx : APIContext) (fl : FlagKind) (n : String) : Prop :=
  (∃ m, ctx.Lookup n = some m ∧ m.flag fl = true)
    ∨ (∃ s ∈ ctx.Services, ∃ meth ∈ s.Methods,
        meth.seedType fl = n ∧ ∃ m, ctx.Lookup n = some m)

/-- The registered Model `a` has a field with `IsMessage = true` whose type
names the registered Model `b`. -/
def APIContext.FieldEdge (ctx : APIContext) (a b : String) : Prop :=
  ∃ m f, ctx.Lookup a = some m ∧ f ∈ m.Fields ∧ f.IsMessage = true ∧ f.Type_ = b
    ∧ ∃ m2, ctx.Lookup b = some m2

/-- The name `n` is seeded or reachable from a seeded name through a chain, of
any length, of message-typed fields resolving to registered Models. -/
def APIContext.Demanded (ctx : APIContext) (fl : FlagKind) (n : String) : Prop :=
  ∃ a, ctx.Seeded fl a ∧ Relation.ReflTransGen ctx.FieldEdge a n

/-- The flags are a fixed point of propagation: no flagged Model has a
registered message-typed field type that is not flagged. -/
def ClosedUnder (fl : FlagKind) (ms : List Model) : Prop :=
  ∀ m ∈ ms, m.flag fl = true → ∀ f ∈ m.Fields, f.IsMessage = true →
    ∀ n, lookupModel ms f.Type_ = some n → n.flag fl = true

/-- The number of Models without the flag. -/
def unflagged (fl : FlagKind) (ms : List Model) : Nat :=
  (ms.filter (fun m => !m.flag fl)).length

/-- What a flag update may do to one Model: name and fields are kept and both
flags can only go from false to true. -/
def Model.Grows (m m1 : Model) : Prop :=
  m1.Name = m.Name ∧ m1.Fields = m.Fields
    ∧ (m.CanMarshal = true → m1.CanMarshal = true)
    ∧ (m.CanUnmarshal = true → m1.CanUnmarshal = true)

/-- What an update of the flag `fl` may do to one Model: as `Grows`, and the
other flag is kept. -/
def Model.Step (fl : FlagKind) (m m1 : Model) : Prop :=
  m1.Name = m.Name ∧ m1.Fields = m.Fields
    ∧ (∀ g, g ≠ fl → m1.flag g = m.flag g)
    ∧ (m.flag fl = true → m1.flag fl = true)

/-- What the steps of a propagation pass may do to the state (registry and
work set): the registry changes by `Step`, every entry added to the work set
accounts for one Model that received the flag, and a state whose work set did
not grow is unchanged. -/
def PassRel (fl : FlagKind) (st st1 : List Model × List String) : Prop :=
  List.Forall₂ (Model.Step fl) st.1 st1.1
    ∧ unflagged fl st1.1 + st1.2.length = unflagged fl st.1 + st.2.length
    ∧ st.2.length ≤ st1.2.length
    ∧ (st1.2.length = st.2.length → st1 = st)

/-- The seed types of a method are flagged in the registry wherever they are
registered. -/
def MethodSeeded (meth : ServiceMethod) (ms : List Model) : Prop :=
  ∀ fl m, lookupModel ms (meth.seedType fl) = some m → m.flag fl = true

/-- Every Model of the registry `cur` that has the flag is demanded in the
Context the run started from, and `cur` has grown from that Context. -/
def Justified (ctx : APIContext) (fl : FlagKind) (cur : List Model) : Prop :=
  List.Forall₂ Model.Grows ctx.Models cur
    ∧ ∀ m ∈ cur, m.flag fl = true → ctx.Demanded fl m.Name

/-! ### The calls `generate` makes to the renderer -/

namespace CycleExample

/-- A Model with a message-typed field of its own type. -/
def node : Model :=
  { Name := "Node", Fields := [{ Name := "next", Type_ := "Node", IsMessage := true }] }

/-- Two Models that reference each other through message-typed fields. -/
def ping : Model :=
  { Name := "Ping", Fields := [{ Name := "pong", Type_ := "Pong", IsMessage := true }] }

/-- The other Model of the mutual pair. -/
def pong : Model :=
  { Name := "Pong", Fields := [{ Name := "ping", Type_ := "Ping", IsMessage := true }] }

/-- A Service with the methods `Walk(Node) -> Node` and `Play(Ping) -> Pong`. -/
def svc : Service :=
  { Name := "Cyclic", Package := "",
    Methods := [
      { Name := "Walk", InputArg := "node", InputType := "Node", OutputType := "Node" },
      { Name := "Play", InputArg := "ping", InputType := "Ping", OutputType := "Pong" }] }

/-- A Context holding the self-referencing Model, the mutual pair and the
Service. -/
def ctx : APIContext := { Models := [node, ping, pong], Services := [svc] }

end CycleExample

/-! ### A request with skipped files -/

namespace SkipExample

/-- A renderer that succeeds on every file. -/
def render (f : FileDescriptorProto) (_gen : CodeGeneratorRequest) :
    Except String CodeGeneratorResponse_File :=
  .ok { Name := f.Name, Content := some "// generated" }

/-- A request with the timestamp file, a file declaring no service and two
files declaring a service. -/
def req : CodeGeneratorRequest :=
  { FileToGenerate := ["one.proto", "two.proto"], Parameter := none,
    ProtoFile := [FailFastExample.file "google/protobuf/timestamp.proto",
      FailFastExample.file "one.proto",
      { Name := some "types.proto", Package := some "svc", Service := none },
      FailFastExample.file "two.proto"] }

end SkipExample

/-! ### Requests with a file descriptor without name -/

namespace NilNameExample

end NilNameExample

/-! ### A request naming a file to generate that it does not carry -/

namespace MissingFileExample

/-- A request whose `FileToGenerate` names a file absent from `ProtoFile`. -/
def req : CodeGeneratorRequest :=
  { FileToGenerate := ["missing.proto"], Parameter := none,
    ProtoFile := [FailFastExample.file "one.proto", FailFastExample.file "two.proto"] }

end MissingFileExample

/-! ### The shape of cleaned paths -/

namespace GoPath

/-- A real path element: not empty, without slash, and neither `.` nor `..`. -/
def RealElem (seg : List Char) : Prop :=
  seg ≠ [] ∧ '/' ∉ seg ∧ seg ≠ ['.'] ∧ seg ≠ ['.', '.']

/-- The separator `Clean` writes before a real path element: a slash unless
the buffer is empty (or is the leading slash of a rooted path). -/
def sepOf (rooted : Bool) (out : List Char) : List Char :=
  if ((rooted && out.length != 1) || (!rooted && out.length != 0)) = true then ['/'] else []

/-- The buffers the loop of `Clean` can hold, with the index `dotdot` where
backtracking must stop: the empty buffer of a relative path, the leading slash
of a rooted path, a buffer of `..` elements extended by one more, and any
buffer extended by a real path element. -/
inductive CleanBuf (rooted : Bool) : List Char → Nat → Prop where
  | empty : rooted = false → CleanBuf rooted [] 0
  | root : rooted = true → CleanBuf rooted ['/'] 1
  | up (out : List Char) (dd : Nat) : rooted = false → CleanBuf rooted out dd →
      out.length = dd →
      CleanBuf rooted ((if 0 < out.length then out ++ ['/'] else out) ++ ['.', '.'])
        ((if 0 < out.length then out ++ ['/'] else out) ++ ['.', '.']).length
  | push (out : List Char) (dd : Nat) (seg : List Char) : CleanBuf rooted out dd →
      RealElem seg → CleanBuf rooted (out ++ sepOf rooted out ++ seg) dd

/-- The text `Join` puts before the base name for a cleaned directory `dir`:
nothing for `.`, the slash for `/`, and `dir + "/"` otherwise. -/
def dirPrefix (dir : String) : String :=
  if dir = "." then "" else if dir = "/" then "/" else dir ++ "/"

end GoPath

/-! ## Lemmas -/

theorem splitChars_no_sep (sep : Char) (p : List Char) (h : sep ∉ p) :
    splitChars sep p = [p] := by
  induction p with
  | nil => simp [splitChars]
  | cons c cs ih =>
    have hc : c ≠ sep := fun e => h (by simp [e])
    have hcs : sep ∉ cs := fun e => h (by simp [e])
    simp [splitChars, hc, ih hcs]

theorem splitChars_append_sep (sep : Char) (p rest : List Char) (h : sep ∉ p) :
    splitChars sep (p ++ sep :: rest) = p :: splitChars sep rest := by
  induction p with
  | nil => simp [splitChars]
  | cons c cs ih =>
    have hc : c ≠ sep := fun e => h (by simp [e])
    have hcs : sep ∉ cs := fun e => h (by simp [e])
    simp [splitChars, hc, ih hcs]

theorem intercalate_go_data (sep : String) (l : List String) (acc : String) :
    (String.intercalate.go acc sep l).data
      = acc.data ++ (l.map (fun a => sep.data ++ a.data)).flatten := by
  induction l generalizing acc with
  | nil => simp [String.intercalate.go]
  | cons a l ih => simp [String.intercalate.go, ih, String.data_append]

theorem intercalate_cons_data (sep a : String) (l : List String) :
    (String.intercalate sep (a :: l)).data
      = a.data ++ (l.map (fun b => sep.data ++ b.data)).flatten := by
  simp [String.intercalate, intercalate_go_data]

/-- Splitting a separator-joined text gives back the pieces. -/
theorem splitChars_joined (sep : Char) (a : String) (l : List String)
    (ha : sep ∉ a.data) (hl : ∀ b ∈ l, sep ∉ b.data) :
    splitChars sep (a.data ++ (l.map (fun b => sep :: b.data)).flatten)
      = (a :: l).map String.data := by
  induction l generalizing a with
  | nil => simpa using splitChars_no_sep sep a.data ha
  | cons b l ih =>
    have hb : sep ∉ b.data := hl b (by simp)
    have hl2 : ∀ b ∈ l, sep ∉ b.data := fun x hx => hl x (by simp [hx])
    have := ih b hb hl2
    simp only [List.map_cons, List.flatten_cons, List.cons_append]
    rw [splitChars_append_sep sep a.data _ ha, this]
    simp

theorem stringsSplit_intercalate (sep : Char) (a : String) (l : List String)
    (ha : sep ∉ a.data) (hl : ∀ b ∈ l, sep ∉ b.data) :
    stringsSplit (String.intercalate (String.singleton sep) (a :: l)) sep = a :: l := by
  unfold stringsSplit
  rw [intercalate_cons_data]
  have : (String.singleton sep).data = [sep] := rfl
  simp only [this, List.singleton_append]
  rw [splitChars_joined sep a l ha hl]
  simp [List.map_map, Function.comp_def]

theorem stringsSplit_no_sep (sep : Char) (p : String) (h : sep ∉ p.data) :
    stringsSplit p sep = [p] := by
  simp [stringsSplit, splitChars_no_sep sep p.data h]

theorem stringsSplit_key_value (k v : String) (hk : '=' ∉ k.data) (hv : '=' ∉ v.data) :
    stringsSplit (k ++ "=" ++ v) '=' = [k, v] := by
  have h := stringsSplit_intercalate '=' k [v] hk (by simpa using hv)
  simpa [String.intercalate, String.intercalate.go] using h

theorem Params.get_set (m : Params) (k v k1 : String) :
    (m.set k v).get k1 = if k = k1 then some v else m.get k1 := by
  induction m with
  | nil => simp [Params.set, Params.get]
  | cons e rest ih =>
    obtain ⟨a, b⟩ := e
    by_cases h : a = k
    · subst h
      by_cases h1 : a = k1 <;> simp [Params.set, Params.get, h1]
    · simp only [Params.set, h, if_false, Params.get, ih]
      by_cases h1 : a = k1
      · subst h1
        simp [show ¬ k = a from fun e => h e.symm]
      · simp [h1]

theorem Params.mem_keys_set (m : Params) (k v k1 : String) :
    k1 ∈ (m.set k v).keys ↔ k1 = k ∨ k1 ∈ m.keys := by
  induction m with
  | nil => simp [Params.set, Params.keys]
  | cons e rest ih =>
    obtain ⟨a, b⟩ := e
    by_cases h : a = k
    · subst h
      simp [Params.set, Params.keys]
    · simp only [Params.keys] at ih
      simp only [Params.set, h, if_false, Params.keys, List.map_cons, List.mem_cons, ih]
      tauto

/-- The map built by assigning the pairs in order. -/
theorem Params.get_foldl (pairs : List (String × String)) (m : Params) (k : String) :
    (pairs.foldl (fun m kv => m.set kv.1 kv.2) m).get k
      = ((pairs.reverse.find? (fun kv => kv.1 = k)).map Prod.snd).or (m.get k) := by
  induction pairs generalizing m with
  | nil => simp
  | cons kv rest ih =>
    simp only [List.foldl_cons, ih, List.reverse_cons, List.find?_append, Params.get_set]
    cases hfind : List.find? (fun kv => decide (kv.1 = k)) rest.reverse with
    | some x => simp
    | none =>
      by_cases h : kv.1 = k <;> simp [h]

theorem Params.mem_keys_foldl (pairs : List (String × String)) (m : Params) (k : String) :
    k ∈ (pairs.foldl (fun m kv => m.set kv.1 kv.2) m).keys
      ↔ k ∈ pairs.map Prod.fst ∨ k ∈ m.keys := by
  induction pairs generalizing m with
  | nil => simp
  | cons kv rest ih =>
    simp only [List.foldl_cons, ih, Params.mem_keys_set, List.map_cons, List.mem_cons]
    tauto

theorem getParametersLoop_pairs (pairs : List (String × String)) (m : Params)
    (h : ∀ kv ∈ pairs, '=' ∉ kv.1.data ∧ '=' ∉ kv.2.data) :
    getParametersLoop (pairs.map (fun kv => kv.1 ++ "=" ++ kv.2)) m
      = some (pairs.foldl (fun m kv => m.set kv.1 kv.2) m) := by
  induction pairs generalizing m with
  | nil => simp [getParametersLoop]
  | cons kv rest ih =>
    have hkv := h kv (by simp)
    have hrest : ∀ kv ∈ rest, '=' ∉ kv.1.data ∧ '=' ∉ kv.2.data :=
      fun x hx => h x (by simp [hx])
    simp only [List.map_cons, getParametersLoop, stringsSplit_key_value kv.1 kv.2 hkv.1 hkv.2,
      List.foldl_cons]
    simpa using ih _ hrest

theorem getParametersLoop_missing_eq (pieces : List String) (m : Params)
    (h : ∃ piece ∈ pieces, '=' ∉ piece.data) : getParametersLoop pieces m = none := by
  induction pieces generalizing m with
  | nil => simp at h
  | cons p rest ih =>
    by_cases hp : '=' ∉ p.data
    · simp [getParametersLoop, stringsSplit_no_sep '=' p hp]
    · have hrest : ∃ piece ∈ rest, '=' ∉ piece.data := by
        obtain ⟨q, hq, hq2⟩ := h
        rcases List.mem_cons.1 hq with rfl | hq
        · exact absurd hq2 hp
        · exact ⟨q, hq, hq2⟩
      unfold getParametersLoop
      simp only
      split
      · exact ih _ hrest
      · rfl

/-! ### `generate` -/

theorem generateLoop_first_failure
    (render : FileDescriptorProto → Except String CodeGeneratorResponse_File)
    (pre post : List FileDescriptorProto) (f : FileDescriptorProto) (e : String)
    (resp : CodeGeneratorResponse)
    (hnames : ∀ g ∈ pre, g.Name ≠ none) (hf : f.Name ≠ none)
    (hpre : ∀ g ∈ pre, eligibleFile g = true → ∃ cf, render g = .ok cf)
    (helig : eligibleFile f = true) (hfail : render f = .error e) :
    generateLoop render (pre ++ f :: post) resp
      = some { Error := some e, File := resp.File ++ renderedFiles render pre } := by
  induction pre generalizing resp with
  | nil =>
    obtain ⟨name, hname⟩ := Option.ne_none_iff_exists'.1 hf
    simp only [eligibleFile, hname, Bool.and_eq_true, decide_eq_true_eq] at helig
    have h1 : name ≠ "google/protobuf/timestamp.proto" := fun h => helig.1 (by rw [h])
    simp [generateLoop, hname, h1, helig.2, hfail, renderedFiles]
  | cons g pre ih =>
    have hg : g.Name ≠ none := hnames g (by simp)
    have hnames2 : ∀ g ∈ pre, g.Name ≠ none := fun x hx => hnames x (by simp [hx])
    have hpre2 : ∀ g ∈ pre, eligibleFile g = true → ∃ cf, render g = .ok cf :=
      fun x hx => hpre x (by simp [hx])
    obtain ⟨name, hname⟩ := Option.ne_none_iff_exists'.1 hg
    by_cases hel : eligibleFile g = true
    · obtain ⟨cf, hcf⟩ := hpre g (by simp) hel
      have hel2 := hel
      simp only [eligibleFile, hname, Bool.and_eq_true, decide_eq_true_eq] at hel2
      have h1 : name ≠ "google/protobuf/timestamp.proto" := fun h => hel2.1 (by rw [h])
      rw [List.cons_append]
      simp only [generateLoop, hname, h1, if_false, hel2.2, hcf]
      rw [ih _ hnames2 hpre2]
      simp [renderedFiles, hel, hcf, Except.toOption]
    · have hskip : name = "google/protobuf/timestamp.proto" ∨ g.Service = none := by
        simp only [eligibleFile, hname, Bool.and_eq_true, decide_eq_true_eq, not_and_or,
          not_not] at hel
        rcases hel with h | h
        · left
          simpa using h
        · right
          exact h
      have hstep : generateLoop render (g :: (pre ++ f :: post)) resp
          = generateLoop render (pre ++ f :: post) resp := by
        rcases hskip with h | h
        · simp [generateLoop, hname, h]
        · by_cases h1 : name = "google/protobuf/timestamp.proto"
          · simp [generateLoop, hname, h1]
          · simp [generateLoop, hname, h1, h]
      rw [List.cons_append, hstep, ih _ hnames2 hpre2]
      simp [renderedFiles, hel]

namespace GoPath

/-! ### `lastIndexByte` -/

theorem lastIndexByte_not_mem (s : List Char) (c : Char) (h : c ∉ s) (k : Nat) :
    lastIndexByte s c k = -1 := by
  induction k with
  | zero => rfl
  | succ k ih =>
    have hk : s[k]? ≠ some c := by
      intro e
      exact h (List.getElem?_mem e)
    simp [lastIndexByte, hk, ih]

theorem lastIndexByte_append (pre file : List Char) (c : Char) (h : c ∉ file) (k : Nat)
    (hk : k ≤ file.length) :
    lastIndexByte (pre ++ c :: file) c (pre.length + 1 + k) = (pre.length : Int) := by
  induction k with
  | zero =>
    have hget : (pre ++ c :: file)[pre.length]? = some c := by
      rw [List.getElem?_append_right (Nat.le_refl _)]
      simp
    simp only [Nat.add_zero, lastIndexByte, hget, if_true]
  | succ k ih =>
    have hlt : k < file.length := hk
    have hget : (pre ++ c :: file)[pre.length + 1 + k]? = some file[k] := by
      rw [List.getElem?_append_right (by omega)]
      have : pre.length + 1 + k - pre.length = k + 1 := by omega
      rw [this]
      simp [hlt]
    have hne : file[k] ≠ c := fun e => h (e ▸ List.getElem_mem hlt)
    have : pre.length + 1 + (k + 1) = (pre.length + 1 + k) + 1 := by omega
    rw [this, lastIndexByte, hget]
    simp [hne, ih (by omega)]

/-- Either no byte below `k` is `c`, or the result is the index of the last
one. -/
theorem lastIndexByte_spec (s : List Char) (c : Char) (k : Nat) :
    (lastIndexByte s c k = -1 ∧ ∀ j, j < k → s[j]? ≠ some c)
      ∨ ∃ i : Nat, lastIndexByte s c k = (i : Int) ∧ i < k ∧ s[i]? = some c
          ∧ ∀ j, i < j → j < k → s[j]? ≠ some c := by
  induction k with
  | zero => exact Or.inl ⟨rfl, fun j hj => absurd hj (Nat.not_lt_zero j)⟩
  | succ k ih =>
    by_cases hk : s[k]? = some c
    · refine Or.inr ⟨k, by simp [lastIndexByte, hk], Nat.lt_succ_self k, hk, ?_⟩
      intro j h1 h2
      omega
    · rcases ih with ⟨h1, h2⟩ | ⟨i, h1, h2, h3, h4⟩
      · refine Or.inl ⟨by simp [lastIndexByte, hk, h1], ?_⟩
        intro j hj
        rcases Nat.lt_succ_iff_lt_or_eq.1 hj with h | h
        · exact h2 j h
        · exact h ▸ hk
      · refine Or.inr ⟨i, by simp [lastIndexByte, hk, h1], Nat.lt_succ_of_lt h2, h3, ?_⟩
        intro j hj1 hj2
        rcases Nat.lt_succ_iff_lt_or_eq.1 hj2 with h | h
        · exact h4 j hj1 h
        · exact h ▸ hk

/-! ### `Ext` -/

theorem extLoop_append (pre suf : List Char) (h1 : '.' ∉ suf) (h2 : '/' ∉ suf) (k : Nat)
    (hk : k ≤ suf.length) :
    extLoop (pre ++ '.' :: suf) (pre.length + 1 + k) = '.' :: suf := by
  induction k with
  | zero =>
    have hget : (pre ++ '.' :: suf)[pre.length]? = some '.' := by
      rw [List.getElem?_append_right (Nat.le_refl _)]
      simp
    simp [extLoop, hget]
  | succ k ih =>
    have hlt : k < suf.length := hk
    have hget : (pre ++ '.' :: suf)[pre.length + 1 + k]? = some suf[k] := by
      rw [List.getElem?_append_right (by omega)]
      have : pre.length + 1 + k - pre.length = k + 1 := by omega
      rw [this]
      simp [hlt]
    have hne1 : suf[k] ≠ '.' := fun e => h1 (e ▸ List.getElem_mem hlt)
    have hne2 : suf[k] ≠ '/' := fun e => h2 (e ▸ List.getElem_mem hlt)
    have : pre.length + 1 + (k + 1) = (pre.length + 1 + k) + 1 := by omega
    rw [this, extLoop, hget]
    simp [hne1, hne2, ih (by omega)]

/-- The result of the `Ext` loop is empty or a suffix starting at a dot, with
no slash from there up to the scanning bound. -/
theorem extLoop_spec (p : List Char) (k : Nat) :
    extLoop p k = []
      ∨ ∃ j, j < k ∧ extLoop p k = p.drop j ∧ p[j]? = some '.'
          ∧ ∀ i, j ≤ i → i < k → p[i]? ≠ some '/' := by
  induction k with
  | zero => exact Or.inl rfl
  | succ k ih =>
    unfold extLoop
    cases hk : p[k]? with
    | none => exact Or.inl rfl
    | some c =>
      by_cases h1 : c = '/'
      · simp [h1]
      · by_cases h2 : c = '.'
        · refine Or.inr ⟨k, Nat.lt_succ_self k, by simp [h2], by simp [hk, h2], ?_⟩
          intro i hi1 hi2
          have : i = k := by omega
          subst this
          simp [hk, h1]
        · rcases ih with h | ⟨j, hj1, hj2, hj3, hj4⟩
          · simp [h1, h2, h]
          · refine Or.inr ⟨j, Nat.lt_succ_of_lt hj1, by simp [h1, h2, hj2], hj3, ?_⟩
            intro i hi1 hi2
            rcases Nat.lt_succ_iff_lt_or_eq.1 hi2 with h | h
            · exact hj4 i hi1 h
            · subst h
              simp [hk, h1]

theorem extLoop_length_le (p : List Char) (k : Nat) : (extLoop p k).length ≤ p.length := by
  rcases extLoop_spec p k with h | ⟨j, _, h, _⟩
  · simp [h]
  · simp [h]

theorem Ext_length_le (path : String) : (Ext path).length ≤ path.length := by
  simp only [Ext, String.length]
  exact extLoop_length_le _ _

end GoPath

namespace GoPath

theorem extLoop_append_slash (pre file : List Char) (k : Nat)
    (hk : k ≤ file.length) :
    extLoop (pre ++ '/' :: file) (pre.length + 1 + k) = extLoop file k := by
  induction k with
  | zero =>
    have hget : (pre ++ '/' :: file)[pre.length]? = some '/' := by
      rw [List.getElem?_append_right (Nat.le_refl _)]
      simp
    simp [extLoop, hget]
  | succ k ih =>
    have hlt : k < file.length := hk
    have hget : (pre ++ '/' :: file)[pre.length + 1 + k]? = some file[k] := by
      rw [List.getElem?_append_right (by omega)]
      have : pre.length + 1 + k - pre.length = k + 1 := by omega
      rw [this]
      simp [hlt]
    have hget2 : file[k]? = some file[k] := by simp [hlt]
    have hdrop : (pre ++ '/' :: file).drop (pre.length + 1 + k) = file.drop k := by
      rw [List.drop_append_eq_append_drop]
      have h1 : pre.length + 1 + k - pre.length = k + 1 := by omega
      have h2 : pre.drop (pre.length + 1 + k) = [] := List.drop_eq_nil_of_le (by omega)
      rw [h1, h2]
      simp
    have : pre.length + 1 + (k + 1) = (pre.length + 1 + k) + 1 := by omega
    rw [this, extLoop, hget, extLoop, hget2]
    simp only [hdrop, ih (by omega)]

/-- A path either has no slash or splits at its last slash. -/
theorem last_slash_cases (p : List Char) :
    '/' ∉ p ∨ ∃ pre file, p = pre ++ '/' :: file ∧ '/' ∉ file := by
  induction p with
  | nil => exact Or.inl (by simp)
  | cons c t ih =>
    rcases ih with h | ⟨pre, file, h1, h2⟩
    · by_cases hc : c = '/'
      · exact Or.inr ⟨[], t, by simp [hc], h⟩
      · refine Or.inl ?_
        intro hmem
        rcases List.mem_cons.1 hmem with h3 | h3
        · exact hc h3.symm
        · exact h h3
    · exact Or.inr ⟨c :: pre, file, by simp [h1], h2⟩

theorem stripTrailingSlashes_concat (q : List Char) (c : Char) (hc : c ≠ '/') :
    stripTrailingSlashes (q ++ [c]) (q ++ [c]).length = q ++ [c] := by
  have hlen : (q ++ [c]).length = q.length + 1 := by simp
  have hk : (q ++ [c])[q.length]? ≠ some '/' := by
    rw [List.getElem?_concat_length]
    intro e
    exact hc (Option.some.inj e)
  rw [hlen]
  simp only [stripTrailingSlashes, hk, if_false]
  rw [← hlen, List.take_length]

/-- The base name of a path whose last element `file` is not empty. -/
theorem Base_of_file (path : String) (pre file : List Char) (hfile : file ≠ [])
    (hslash : '/' ∉ file) (hpath : path.data = file ∨ path.data = pre ++ '/' :: file) :
    Base path = ⟨file⟩ := by
  have hne : path ≠ "" := by
    intro e
    rw [e] at hpath
    rcases hpath with h | h
    · exact hfile h.symm
    · simp at h
  obtain ⟨init, c, hfc⟩ : ∃ init c, file = init ++ [c] := by
    rcases List.eq_nil_or_concat file with h | ⟨init, c, h⟩
    · exact absurd h hfile
    · exact ⟨init, c, by simpa using h⟩
  have hc : c ≠ '/' := fun e => hslash (by rw [hfc, e]; simp)
  have hstrip : stripTrailingSlashes path.data path.data.length = path.data := by
    rcases hpath with h | h
    · rw [h, hfc]
      exact stripTrailingSlashes_concat init c hc
    · have : path.data = (pre ++ '/' :: init) ++ [c] := by rw [h, hfc]; simp
      rw [this]
      exact stripTrailingSlashes_concat _ c hc
  unfold Base
  rw [if_neg hne]
  simp only [hstrip]
  rcases hpath with h | h
  · have hidx : lastIndexByte path.data '/' path.data.length = -1 := by
      rw [h]
      exact lastIndexByte_not_mem file '/' hslash _
    simp only [hidx]
    rw [h]
    simp [hfile]
  · have hidx : lastIndexByte path.data '/' path.data.length = (pre.length : Int) := by
      rw [h]
      have := lastIndexByte_append pre file '/' hslash file.length (Nat.le_refl _)
      rw [← this]
      congr 1
      simp
      omega
    have hdrop : List.drop (pre.length + 1) path.data = file := by
      rw [h, List.drop_append_eq_append_drop]
      simp
    have htonat : ((pre.length : Int) + 1).toNat = pre.length + 1 := by omega
    simp only [hidx, htonat, hdrop]
    simp [hfile]

/-- The extension is that of the last element. -/
theorem Ext_of_file (path : String) (pre file : List Char)
    (hpath : path.data = pre ++ '/' :: file) : Ext path = Ext ⟨file⟩ := by
  unfold Ext
  rw [hpath]
  have := extLoop_append_slash pre file file.length (Nat.le_refl _)
  simp only [List.length_append, List.length_cons]
  rw [← this]
  congr 2
  omega

/-- When a path has an extension, its base name is its last element, which
has the same extension and no slash. -/
theorem Base_of_ext (path : String) (h : Ext path ≠ "") :
    ∃ file, file ≠ [] ∧ '/' ∉ file ∧ Base path = ⟨file⟩ ∧ Ext ⟨file⟩ = Ext path := by
  rcases last_slash_cases path.data with hs | ⟨pre, file, hp, hs⟩
  · have hne : path.data ≠ [] := by
      intro e
      apply h
      simp [Ext, e, extLoop]
    exact ⟨path.data, hne, hs, Base_of_file path [] path.data hne hs (Or.inl rfl), rfl⟩
  · have hext := Ext_of_file path pre file hp
    have hne : file ≠ [] := by
      intro e
      apply h
      rw [hext, e]
      rfl
    exact ⟨file, hne, hs, Base_of_file path pre file hne hs (Or.inr hp), hext.symm⟩

end GoPath

namespace GoPath

theorem length_dropWhile_le (p : Char → Bool) (l : List Char) :
    (l.dropWhile p).length ≤ l.length := by
  induction l with
  | nil => simp
  | cons a t ih =>
    rw [List.dropWhile_cons]
    split
    · exact Nat.le_succ_of_le ih
    · exact Nat.le_refl _

/-- Every iteration of the loop of `Clean` consumes input, so any budget of
at least `len(rest)` iterations gives the same result. -/
theorem cleanLoop_fuel (rooted : Bool) (f1 f2 : Nat) (rest out : List Char) (dd : Nat)
    (h1 : rest.length ≤ f1) (h2 : rest.length ≤ f2) :
    cleanLoop rooted f1 rest out dd = cleanLoop rooted f2 rest out dd := by
  induction f1 generalizing f2 rest out dd with
  | zero =>
    have : rest = [] := List.length_eq_zero.1 (Nat.le_zero.1 h1)
    subst this
    cases f2 <;> simp [cleanLoop]
  | succ f1 ih =>
    cases f2 with
    | zero =>
      have : rest = [] := List.length_eq_zero.1 (Nat.le_zero.1 h2)
      subst this
      simp [cleanLoop]
    | succ f2 =>
      cases rest with
      | nil => simp [cleanLoop]
      | cons c t =>
        have ht1 : t.length ≤ f1 := by simpa using h1
        have ht2 : t.length ≤ f2 := by simpa using h2
        have htt1 : t.tail.length ≤ f1 := by
          have := List.length_tail t
          omega
        have htt2 : t.tail.length ≤ f2 := by
          have := List.length_tail t
          omega
        have hd1 : (t.dropWhile (fun x => x ≠ '/')).length ≤ f1 :=
          Nat.le_trans (length_dropWhile_le _ t) ht1
        have hd2 : (t.dropWhile (fun x => x ≠ '/')).length ≤ f2 :=
          Nat.le_trans (length_dropWhile_le _ t) ht2
        simp only [cleanLoop]
        split
        · exact ih _ _ _ _ ht1 ht2
        · split
          · exact ih _ _ _ _ ht1 ht2
          · split
            · split
              · exact ih _ _ _ _ htt1 htt2
              · split
                · exact ih _ _ _ _ htt1 htt2
                · exact ih _ _ _ _ htt1 htt2
            · exact ih _ _ _ _ hd1 hd2

/-- One iteration on a real path element `seg` (not empty, no slash, neither
`.` nor `..`) followed by the end of the path or a slash: the element is
copied, after a slash when the buffer is not empty. -/
theorem cleanLoop_elem (fuel : Nat) (seg rest out : List Char) (dd : Nat)
    (hne : seg ≠ []) (hslash : '/' ∉ seg) (hdot : seg ≠ ['.']) (hdotdot : seg ≠ ['.', '.'])
    (hrest : rest = [] ∨ ∃ t, rest = '/' :: t)
    (hfuel : (seg ++ rest).length ≤ fuel) :
    cleanLoop false fuel (seg ++ rest) out dd
      = cleanLoop false rest.length rest ((if out = [] then [] else out ++ ['/']) ++ seg) dd := by
  obtain ⟨c, t0, rfl⟩ := List.exists_cons_of_ne_nil hne
  cases fuel with
  | zero => simp at hfuel
  | succ fuel =>
    have hc : c ≠ '/' := fun e => hslash (by simp [e])
    have ht0 : ∀ a ∈ t0, a ≠ '/' := fun a ha e => hslash (by rw [← e]; exact List.mem_cons_of_mem _ ha)
    have hhead : ∀ (l : List Char), l ≠ [] → (∀ a ∈ l, a ≠ '/') →
        ¬ (l ++ rest = [] ∨ (l ++ rest).head? = some '/') := by
      intro l hl hall
      obtain ⟨a, l1, rfl⟩ := List.exists_cons_of_ne_nil hl
      have : a ≠ '/' := hall a (by simp)
      simp [this]
    have h2 : ¬ (c = '.' ∧ (t0 ++ rest = [] ∨ (t0 ++ rest).head? = some '/')) := by
      rintro ⟨hc1, hc2⟩
      have : t0 ≠ [] := fun e => hdot (by simp [hc1, e])
      exact hhead t0 this ht0 hc2
    have h3 : ¬ (c = '.' ∧ (t0 ++ rest).head? = some '.'
        ∧ ((t0 ++ rest).tail = [] ∨ (t0 ++ rest).tail.head? = some '/')) := by
      rintro ⟨hc1, hc2, hc3⟩
      cases t0 with
      | nil => exact hdot (by simp [hc1])
      | cons b t1 =>
        have hb : b = '.' := by simpa using hc2
        have : t1 ≠ [] := fun e => hdotdot (by simp [hc1, hb, e])
        exact hhead t1 this (fun a ha => ht0 a (by simp [ha])) (by simpa using hc3)
    have htake : (t0 ++ rest).takeWhile (fun x => decide (x ≠ '/')) = t0 := by
      rw [List.takeWhile_append_of_pos (by simpa using ht0)]
      rcases hrest with h | ⟨t, h⟩ <;> simp [h]
    have hdrop : (t0 ++ rest).dropWhile (fun x => decide (x ≠ '/')) = rest := by
      rw [List.dropWhile_append_of_pos (by simpa using ht0)]
      rcases hrest with h | ⟨t, h⟩ <;> simp [h]
    have hout : (if ((false && out.length != 1) || (!false && out.length != 0)) = true
        then out ++ ['/'] else out) = (if out = [] then [] else out ++ ['/']) := by
      cases out <;> simp
    rw [List.cons_append]
    simp only [cleanLoop, hc, if_false, h2, h3, htake, hdrop, hout]
    have hfuel2 : rest.length ≤ fuel := by
      simp only [List.length_append, List.length_cons] at hfuel
      omega
    exact cleanLoop_fuel false _ _ _ _ _ hfuel2 (Nat.le_refl _)

/-- One iteration on a slash. -/
theorem cleanLoop_slash (fuel : Nat) (rest out : List Char) (dd : Nat)
    (hfuel : ('/' :: rest).length ≤ fuel) :
    cleanLoop false fuel ('/' :: rest) out dd = cleanLoop false rest.length rest out dd := by
  cases fuel with
  | zero => simp at hfuel
  | succ fuel =>
    simp only [cleanLoop, if_true]
    exact cleanLoop_fuel false _ _ _ _ _ (by simpa using hfuel) (Nat.le_refl _)

/-- The loop of `Clean` on a sequence of real path elements, each preceded by
a slash, optionally followed by a trailing slash, appends them unchanged. -/
theorem cleanLoop_elems (l : List (List Char)) (tail out : List Char) (fuel : Nat)
    (hl : ∀ seg ∈ l, seg ≠ [] ∧ '/' ∉ seg ∧ seg ≠ ['.'] ∧ seg ≠ ['.', '.'])
    (htail : tail = [] ∨ tail = ['/']) (hout : out ≠ [])
    (hfuel : ((l.map (fun b => '/' :: b)).flatten ++ tail).length ≤ fuel) :
    cleanLoop false fuel ((l.map (fun b => '/' :: b)).flatten ++ tail) out 0
      = out ++ (l.map (fun b => '/' :: b)).flatten := by
  induction l generalizing out fuel with
  | nil =>
    rcases htail with h | h
    · subst h
      cases fuel <;> simp [cleanLoop]
    · subst h
      rw [List.map_nil, List.flatten_nil, List.nil_append, cleanLoop_slash _ _ _ _ (by simpa using hfuel)]
      simp [cleanLoop]
  | cons b l ih =>
    obtain ⟨hb1, hb2, hb3, hb4⟩ := hl b (by simp)
    have hl2 : ∀ seg ∈ l, seg ≠ [] ∧ '/' ∉ seg ∧ seg ≠ ['.'] ∧ seg ≠ ['.', '.'] :=
      fun seg hseg => hl seg (by simp [hseg])
    have hrest : (l.map (fun b => '/' :: b)).flatten ++ tail = []
        ∨ ∃ t, (l.map (fun b => '/' :: b)).flatten ++ tail = '/' :: t := by
      cases l with
      | nil =>
        rcases htail with h | h
        · exact Or.inl (by simp [h])
        · exact Or.inr ⟨[], by simp [h]⟩
      | cons b2 l2 => exact Or.inr ⟨b2 ++ ((l2.map (fun b => '/' :: b)).flatten ++ tail), by simp⟩
    simp only [List.map_cons, List.flatten_cons, List.cons_append, List.append_assoc] at hfuel ⊢
    rw [cleanLoop_slash _ _ _ _ hfuel,
      cleanLoop_elem _ b _ out 0 hb1 hb2 hb3 hb4 hrest (Nat.le_refl _),
      ih _ _ hl2 (by simp [hb1]) (Nat.le_refl _)]
    simp [hout]

end GoPath

namespace GoPath

/-- Cleaning leaves a relative path of real path elements unchanged, apart from
removing one trailing slash. -/
theorem Clean_elems (a : List Char) (l : List (List Char)) (tail : List Char)
    (ha : a ≠ [] ∧ '/' ∉ a ∧ a ≠ ['.'] ∧ a ≠ ['.', '.'])
    (hl : ∀ seg ∈ l, seg ≠ [] ∧ '/' ∉ seg ∧ seg ≠ ['.'] ∧ seg ≠ ['.', '.'])
    (htail : tail = [] ∨ tail = ['/']) :
    Clean ⟨a ++ ((l.map (fun b => '/' :: b)).flatten ++ tail)⟩
      = ⟨a ++ (l.map (fun b => '/' :: b)).flatten⟩ := by
  obtain ⟨ha1, ha2, ha3, ha4⟩ := ha
  obtain ⟨c, t0, rfl⟩ := List.exists_cons_of_ne_nil ha1
  have hc : c ≠ '/' := fun e => ha2 (by simp [e])
  have hne : (⟨c :: t0 ++ ((l.map (fun b => '/' :: b)).flatten ++ tail)⟩ : String) ≠ "" := by
    intro e
    have := congrArg String.data e
    simp at this
  have hrest : (l.map (fun b => '/' :: b)).flatten ++ tail = []
      ∨ ∃ t, (l.map (fun b => '/' :: b)).flatten ++ tail = '/' :: t := by
    cases l with
    | nil =>
      rcases htail with h | h
      · exact Or.inl (by simp [h])
      · exact Or.inr ⟨[], by simp [h]⟩
    | cons b2 l2 =>
      exact Or.inr ⟨b2 ++ ((l2.map (fun b => '/' :: b)).flatten ++ tail), by simp⟩
  have hrooted : ¬ ((c :: t0 ++ ((l.map (fun b => '/' :: b)).flatten ++ tail)).head? = some '/') := by
    simp [hc]
  unfold Clean
  rw [if_neg hne]
  simp only [hrooted, decide_False, if_false, Bool.false_eq_true]
  rw [cleanLoop_elem _ (c :: t0) _ [] 0 ha1 ha2 ha3 ha4 hrest (Nat.le_refl _)]
  simp only [if_true, List.nil_append]
  rw [cleanLoop_elems l tail (c :: t0) _ hl htail ha1 (Nat.le_refl _)]
  simp

theorem Ext_of_suffix (pre suf : List Char) (h1 : '.' ∉ suf) (h2 : '/' ∉ suf) :
    Ext ⟨pre ++ '.' :: suf⟩ = ⟨'.' :: suf⟩ := by
  unfold Ext
  have := extLoop_append pre suf h1 h2 suf.length (Nat.le_refl _)
  have hlen : (pre ++ '.' :: suf).length = pre.length + 1 + suf.length := by
    simp only [List.length_append, List.length_cons]
    omega
  simp only [hlen, this]

end GoPath

theorem sliceTo_take (s : String) (k : Nat) (hk : k ≤ s.length) :
    sliceTo s ((s.length : Int) - (k : Int)) = some ⟨s.data.take (s.length - k)⟩ := by
  unfold sliceTo
  have h1 : (0 : Int) ≤ (s.length : Int) - (k : Int) ∧ (s.length : Int) - (k : Int) ≤ (s.length : Int) := by
    omega
  have h2 : ((s.length : Int) - (k : Int)).toNat = s.length - k := by omega
  rw [if_pos h1, h2]

namespace GoPath

theorem Dir_of_file (path : String) (pre file : List Char) (hslash : '/' ∉ file)
    (hpath : path.data = pre ++ '/' :: file) : Dir path = Clean ⟨pre ++ ['/']⟩ := by
  have hidx : lastIndexByte path.data '/' path.data.length = (pre.length : Int) := by
    rw [hpath]
    have := lastIndexByte_append pre file '/' hslash file.length (Nat.le_refl _)
    rw [← this]
    congr 1
    simp only [List.length_append, List.length_cons]
    omega
  have htonat : ((pre.length : Int) + 1).toNat = pre.length + 1 := by omega
  have htake : List.take (pre.length + 1) path.data = pre ++ ['/'] := by
    rw [hpath, List.take_append_eq_append_take]
    simp
  unfold Dir Split
  simp only [hidx, htonat, htake]

theorem Join_pair (d name : String) (hd : d.data ≠ []) :
    Join [d, name] = Clean ⟨d.data ++ '/' :: name.data⟩ := by
  have hd2 : d ≠ "" := fun e => hd (by rw [e])
  have hlen : ¬ ((List.map String.length [d, name]).sum = 0) := by
    have : 0 < d.length := by
      simp only [String.length]
      exact List.length_pos.2 hd
    simp only [List.map_cons, List.map_nil, List.sum_cons, List.sum_nil]
    omega
  unfold Join
  rw [if_neg hlen]
  simp [joinBuf, hd, hd2]

end GoPath

theorem String.data_ne_of_ne (s t : String) (h : s ≠ t) : s.data ≠ t.data :=
  fun e => h (String.ext e)

/-- The computation of `twirpFilename` on a file `s + ext` in a clean relative
directory, for an extension `"." + suf` that is recognised. -/
theorem twirpFilename_in_clean_dir (a : String) (l : List String) (p s : String)
    (suf : List Char)
    (hseg : ∀ seg ∈ a :: l, seg ≠ "" ∧ seg ≠ "." ∧ seg ≠ ".." ∧ '/' ∉ seg.data)
    (hp : '/' ∉ p.data) (hs : '/' ∉ s.data)
    (hsuf1 : '.' ∉ suf) (hsuf2 : '/' ∉ suf)
    (hext : (⟨'.' :: suf⟩ : String) = ".proto" ∨ (⟨'.' :: suf⟩ : String) = ".protodevel") :
    twirpFilename p (String.intercalate "/" (a :: l) ++ "/" ++ s ++ ⟨'.' :: suf⟩)
      = some (String.intercalate "/" (a :: l) ++ "/" ++ p ++ "." ++ s ++ ".twirp.swift") := by
  -- the shape of the directory
  have hgood : ∀ seg ∈ a :: l,
      seg.data ≠ [] ∧ '/' ∉ seg.data ∧ seg.data ≠ ['.'] ∧ seg.data ≠ ['.', '.'] := by
    intro seg hmem
    obtain ⟨h1, h2, h3, h4⟩ := hseg seg hmem
    exact ⟨String.data_ne_of_ne _ _ h1, h4, String.data_ne_of_ne _ _ h2,
      String.data_ne_of_ne _ _ h3⟩
  have hgl : ∀ seg ∈ l.map String.data,
      seg ≠ [] ∧ '/' ∉ seg ∧ seg ≠ ['.'] ∧ seg ≠ ['.', '.'] := by
    intro seg hmem
    obtain ⟨x, hx, rfl⟩ := List.mem_map.1 hmem
    exact hgood x (by simp [hx])
  have hd : (String.intercalate "/" (a :: l)).data
      = a.data ++ ((l.map String.data).map (fun b => '/' :: b)).flatten := by
    rw [intercalate_cons_data]
    simp [List.map_map, Function.comp_def]
  have hdne : (String.intercalate "/" (a :: l)).data ≠ [] := by
    rw [hd]
    simp [(hgood a (by simp)).1]
  have hfile : '/' ∉ s.data ++ '.' :: suf := by
    simp [hs, hsuf2]
  have hfilene : s.data ++ '.' :: suf ≠ [] := by simp
  have hfp : (String.intercalate "/" (a :: l) ++ "/" ++ s ++ ⟨'.' :: suf⟩).data
      = (String.intercalate "/" (a :: l)).data ++ '/' :: (s.data ++ '.' :: suf) := by
    simp [String.data_append]
  have hE : GoPath.Ext (String.intercalate "/" (a :: l) ++ "/" ++ s ++ ⟨'.' :: suf⟩)
      = ⟨'.' :: suf⟩ := by
    have h1 : (String.intercalate "/" (a :: l) ++ "/" ++ s ++ ⟨'.' :: suf⟩)
        = ⟨((String.intercalate "/" (a :: l)).data ++ '/' :: s.data) ++ '.' :: suf⟩ := by
      apply String.ext
      simp [String.data_append]
    rw [h1, GoPath.Ext_of_suffix _ suf hsuf1 hsuf2]
  have hB : GoPath.Base (String.intercalate "/" (a :: l) ++ "/" ++ s ++ ⟨'.' :: suf⟩)
      = ⟨s.data ++ '.' :: suf⟩ :=
    GoPath.Base_of_file _ _ _ hfilene hfile (Or.inr hfp)
  have hEB : GoPath.Ext ⟨s.data ++ '.' :: suf⟩ = ⟨'.' :: suf⟩ :=
    GoPath.Ext_of_suffix _ suf hsuf1 hsuf2
  have hslice : sliceTo ⟨s.data ++ '.' :: suf⟩
      (((⟨s.data ++ '.' :: suf⟩ : String).length : Int)
        - (((⟨'.' :: suf⟩ : String).length : Nat) : Int)) = some s := by
    have hk : (⟨'.' :: suf⟩ : String).length ≤ (⟨s.data ++ '.' :: suf⟩ : String).length := by
      show ('.' :: suf).length ≤ (s.data ++ '.' :: suf).length
      rw [List.length_append]
      exact Nat.le_add_left _ _
    rw [sliceTo_take _ _ hk]
    have h1 : (⟨s.data ++ '.' :: suf⟩ : String).length - (⟨'.' :: suf⟩ : String).length
        = s.data.length := by
      show (s.data ++ '.' :: suf).length - ('.' :: suf).length = s.data.length
      rw [List.length_append]
      exact Nat.add_sub_cancel _ _
    rw [h1]
    show some (⟨List.take s.data.length (s.data ++ '.' :: suf)⟩ : String) = some s
    rw [List.take_left]
  have hD : GoPath.Dir (String.intercalate "/" (a :: l) ++ "/" ++ s ++ ⟨'.' :: suf⟩)
      = String.intercalate "/" (a :: l) := by
    rw [GoPath.Dir_of_file _ _ _ hfile hfp, hd, List.append_assoc,
      GoPath.Clean_elems a.data (l.map String.data) ['/'] (hgood a (by simp)) hgl (Or.inr rfl)]
    exact String.ext (by rw [hd])
  -- the new base name is one real path element
  have hname : ∀ name : String, name = p ++ "." ++ s ++ ".twirp.swift" →
      GoPath.Join [String.intercalate "/" (a :: l), name]
        = String.intercalate "/" (a :: l) ++ "/" ++ name := by
    intro name hn
    have hnd : name.data = p.data ++ '.' :: (s.data ++ ".twirp.swift".data) := by
      rw [hn]
      simp [String.data_append]
    have hlen : 13 ≤ name.data.length := by
      rw [hnd]
      simp only [List.length_append, List.length_cons]
      have : ".twirp.swift".data.length = 12 := by decide
      omega
    have hn1 : name.data ≠ [] := by
      intro e
      rw [e] at hlen
      simp at hlen
    have hn2 : '/' ∉ name.data := by
      rw [hnd]
      have : '/' ∉ ".twirp.swift".data := by decide
      simp [hp, hs, this]
    have hn3 : name.data ≠ ['.'] := by
      intro e
      rw [e] at hlen
      simp at hlen
    have hn4 : name.data ≠ ['.', '.'] := by
      intro e
      rw [e] at hlen
      simp at hlen
    have hall : ∀ seg ∈ l.map String.data ++ [name.data],
        seg ≠ [] ∧ '/' ∉ seg ∧ seg ≠ ['.'] ∧ seg ≠ ['.', '.'] := by
      intro seg hmem
      rcases List.mem_append.1 hmem with h | h
      · exact hgl seg h
      · rw [List.mem_singleton.1 h]
        exact ⟨hn1, hn2, hn3, hn4⟩
    have hshape : (String.intercalate "/" (a :: l)).data ++ '/' :: name.data
        = a.data ++ (((l.map String.data ++ [name.data]).map (fun b => '/' :: b)).flatten ++ []) := by
      rw [hd]
      simp
    rw [GoPath.Join_pair _ _ hdne, hshape,
      GoPath.Clean_elems a.data _ [] (hgood a (by simp)) hall (Or.inl rfl)]
    apply String.ext
    simp [String.data_append, hd]
  unfold twirpFilename
  simp only [hE, hext, if_true, hB, hEB, hslice, Option.map_some', hD]
  rw [hname _ rfl]
  congr 1
  apply String.ext
  simp [String.data_append]


/-- The slice `base[:len(base)-len(path.Ext(base))]` is always within bounds. -/
theorem sliceTo_base_ext (base : String) :
    sliceTo base ((base.length : Int) - ((GoPath.Ext base).length : Int))
      = some ⟨base.data.take (base.length - (GoPath.Ext base).length)⟩ :=
  sliceTo_take base _ (GoPath.Ext_length_le base)

theorem dartFilename_recognised (name : String)
    (h : GoPath.Ext name = ".proto" ∨ GoPath.Ext name = ".protodevel") :
    ∃ stem : List Char, '/' ∉ stem ∧ dartFilename name = some (⟨stem⟩ ++ ".model.swift") := by
  have hne : GoPath.Ext name ≠ "" := by
    rcases h with h | h <;> rw [h] <;> decide
  obtain ⟨file, _, hslash, hbase, _⟩ := GoPath.Base_of_ext name hne
  refine ⟨file.take ((⟨file⟩ : String).length - (GoPath.Ext ⟨file⟩).length), ?_, ?_⟩
  · intro hmem
    exact hslash (List.mem_of_mem_take hmem)
  · unfold dartFilename
    simp only [h, if_true, hbase, sliceTo_base_ext, Option.map_some']

theorem dartFilename_unrecognised (name : String)
    (h : ¬ (GoPath.Ext name = ".proto" ∨ GoPath.Ext name = ".protodevel")) :
    dartFilename name = some (name ++ ".model.swift") := by
  unfold dartFilename
  simp only [h, if_false]

/-! ### Models, lookup and marking -/

theorem foldl_invariant {α β : Type} (P : β → Prop) (f : β → α → β) (l : List α) (b : β)
    (hb : P b) (hf : ∀ b a, a ∈ l → P b → P (f b a)) : P (l.foldl f b) := by
  induction l generalizing b with
  | nil => exact hb
  | cons a l ih =>
    exact ih (f b a) (hf b a (by simp) hb) (fun b1 a1 ha1 => hf b1 a1 (by simp [ha1]))

theorem Model.setFlag_Name (m : Model) (fl : FlagKind) : (m.setFlag fl).Name = m.Name := by
  cases fl <;> rfl

theorem Model.setFlag_Fields (m : Model) (fl : FlagKind) : (m.setFlag fl).Fields = m.Fields := by
  cases fl <;> rfl

theorem Model.setFlag_flag (m : Model) (fl g : FlagKind) :
    (m.setFlag fl).flag g = if g = fl then true else m.flag g := by
  cases fl <;> cases g <;> simp [Model.setFlag, Model.flag]

theorem Model.setFlag_of_flag (m : Model) (fl : FlagKind) (h : m.flag fl = true) :
    m.setFlag fl = m := by
  cases fl
  · simp only [Model.flag] at h
    simp only [Model.setFlag, ← h]
  · simp only [Model.flag] at h
    simp only [Model.setFlag, ← h]

theorem Model.Step.step_refl (fl : FlagKind) (m : Model) : Model.Step fl m m :=
  ⟨rfl, rfl, fun _ _ => rfl, fun h => h⟩

theorem Model.Step.step_trans {fl : FlagKind} {a b c : Model} (h1 : Model.Step fl a b)
    (h2 : Model.Step fl b c) : Model.Step fl a c :=
  ⟨h2.1.trans h1.1, h2.2.1.trans h1.2.1,
    fun g hg => (h2.2.2.1 g hg).trans (h1.2.2.1 g hg), fun h => h2.2.2.2 (h1.2.2.2 h)⟩

theorem Model.Step.setFlag (fl : FlagKind) (m : Model) : Model.Step fl m (m.setFlag fl) := by
  refine ⟨m.setFlag_Name fl, m.setFlag_Fields fl, ?_, ?_⟩
  · intro g hg
    rw [Model.setFlag_flag, if_neg hg]
  · intro _
    rw [Model.setFlag_flag, if_pos rfl]

theorem Model.Step.grows {fl : FlagKind} {a b : Model} (h : Model.Step fl a b) :
    Model.Grows a b := by
  obtain ⟨h1, h2, h3, h4⟩ := h
  cases fl with
  | marshal =>
    refine ⟨h1, h2, h4, ?_⟩
    intro hu
    have := h3 .unmarshal (by decide)
    simp only [Model.flag] at this
    rw [this, hu]
  | unmarshal =>
    refine ⟨h1, h2, ?_, h4⟩
    intro hu
    have := h3 .marshal (by decide)
    simp only [Model.flag] at this
    rw [this, hu]

theorem Model.Grows.grows_refl (m : Model) : Model.Grows m m :=
  ⟨rfl, rfl, fun h => h, fun h => h⟩

theorem Model.Grows.grows_trans {a b c : Model} (h1 : Model.Grows a b) (h2 : Model.Grows b c) :
    Model.Grows a c :=
  ⟨h2.1.trans h1.1, h2.2.1.trans h1.2.1, fun h => h2.2.2.1 (h1.2.2.1 h),
    fun h => h2.2.2.2 (h1.2.2.2 h)⟩

theorem Model.Grows.flag {a b : Model} (h : Model.Grows a b) (fl : FlagKind)
    (hf : a.flag fl = true) : b.flag fl = true := by
  cases fl
  · exact h.2.2.1 hf
  · exact h.2.2.2 hf

theorem forall₂_refl_of {R : Model → Model → Prop} (hR : ∀ m, R m m) (ms : List Model) :
    List.Forall₂ R ms ms := by
  induction ms with
  | nil => exact List.Forall₂.nil
  | cons m ms ih => exact List.Forall₂.cons (hR m) ih

theorem forall₂_trans_of {R : Model → Model → Prop}
    (hR : ∀ a b c, R a b → R b c → R a c) {l1 l2 l3 : List Model}
    (h1 : List.Forall₂ R l1 l2) (h2 : List.Forall₂ R l2 l3) : List.Forall₂ R l1 l3 := by
  induction h1 generalizing l3 with
  | nil =>
    cases h2
    exact List.Forall₂.nil
  | cons hab _ ih =>
    cases h2 with
    | cons hbc h2t => exact List.Forall₂.cons (hR _ _ _ hab hbc) (ih h2t)

theorem forall₂_mono_of {R S : Model → Model → Prop} (h : ∀ a b, R a b → S a b)
    {l1 l2 : List Model} (h1 : List.Forall₂ R l1 l2) : List.Forall₂ S l1 l2 := by
  induction h1 with
  | nil => exact List.Forall₂.nil
  | cons hab _ ih => exact List.Forall₂.cons (h _ _ hab) ih

theorem lookupModel_nil (k : String) : lookupModel [] k = none := rfl

theorem lookupModel_cons (m : Model) (ms : List Model) (k : String) :
    lookupModel (m :: ms) k = if m.Name = k then some m else lookupModel ms k := by
  by_cases h : m.Name = k <;> simp [lookupModel, List.find?_cons, h]

theorem lookupModel_name {ms : List Model} {k : String} {m : Model}
    (h : lookupModel ms k = some m) : m.Name = k := by
  have := List.find?_some h
  simpa using this

theorem lookupModel_mem {ms : List Model} {k : String} {m : Model}
    (h : lookupModel ms k = some m) : m ∈ ms :=
  List.mem_of_find?_eq_some h

/-- Related registries resolve the same names, to related Models. -/
theorem lookupModel_forall₂ {R : Model → Model → Prop} (hR : ∀ a b, R a b → b.Name = a.Name)
    {l1 l2 : List Model} (h : List.Forall₂ R l1 l2) (k : String) :
    (∀ m, lookupModel l1 k = some m → ∃ m1, lookupModel l2 k = some m1 ∧ R m m1)
      ∧ (∀ m1, lookupModel l2 k = some m1 → ∃ m, lookupModel l1 k = some m ∧ R m m1) := by
  induction h with
  | nil => simp [lookupModel_nil]
  | @cons a b l1 l2 hab _ ih =>
    have hn := hR a b hab
    simp only [lookupModel_cons, hn]
    by_cases hk : a.Name = k
    · simp only [hk, if_true]
      constructor
      · intro m hm
        exact ⟨b, rfl, (Option.some.inj hm) ▸ hab⟩
      · intro m1 hm1
        exact ⟨a, rfl, (Option.some.inj hm1) ▸ hab⟩
    · simp only [hk, if_false]
      exact ih

theorem forall₂_mem_right {R : Model → Model → Prop} {l1 l2 : List Model}
    (h : List.Forall₂ R l1 l2) {b : Model} (hb : b ∈ l2) : ∃ a ∈ l1, R a b := by
  induction h with
  | nil => simp at hb
  | @cons a0 b0 l1 l2 hab _ ih =>
    rcases List.mem_cons.1 hb with h1 | h1
    · exact ⟨a0, by simp, h1 ▸ hab⟩
    · obtain ⟨a, ha, hr⟩ := ih h1
      exact ⟨a, by simp [ha], hr⟩

theorem forall₂_getElem? {R : Model → Model → Prop} {l1 l2 : List Model}
    (h : List.Forall₂ R l1 l2) (i : Nat) {a : Model} (ha : l1[i]? = some a) :
    ∃ b, l2[i]? = some b ∧ R a b := by
  induction h generalizing i with
  | nil => simp at ha
  | @cons a0 b0 l1 l2 hab _ ih =>
    cases i with
    | zero =>
      simp only [List.getElem?_cons_zero, Option.some.injEq] at ha
      exact ⟨b0, by simp, ha ▸ hab⟩
    | succ i =>
      simp only [List.getElem?_cons_succ] at ha ⊢
      exact ih i ha

/-! ### `markModel` -/

theorem markModel_step (fl : FlagKind) (n : String) (ms : List Model) :
    List.Forall₂ (Model.Step fl) ms (markModel fl n ms) := by
  induction ms with
  | nil => exact List.Forall₂.nil
  | cons m ms ih =>
    unfold markModel
    split
    · exact List.Forall₂.cons (Model.Step.setFlag fl m) (forall₂_refl_of (Model.Step.step_refl fl) ms)
    · exact List.Forall₂.cons (Model.Step.step_refl fl m) ih

theorem lookupModel_markModel (fl : FlagKind) (n k : String) (ms : List Model) :
    lookupModel (markModel fl n ms) k
      = (lookupModel ms k).map (fun m => if k = n then m.setFlag fl else m) := by
  induction ms with
  | nil => rfl
  | cons m ms ih =>
    unfold markModel
    by_cases hn : m.Name = n
    · simp only [hn, if_true, lookupModel_cons, Model.setFlag_Name]
      by_cases hk : n = k
      · simp [hk]
      · have hk2 : ¬ k = n := fun e => hk e.symm
        simp only [hk, if_false, hk2]
        cases lookupModel ms k <;> simp
    · simp only [hn, if_false, lookupModel_cons]
      by_cases hk : m.Name = k
      · have hk2 : ¬ k = n := fun e => hn (hk.trans e)
        simp [hk, hk2]
      · simp only [hk, if_false, ih]

theorem markModel_of_none (fl : FlagKind) (n : String) (ms : List Model)
    (h : lookupModel ms n = none) : markModel fl n ms = ms := by
  induction ms with
  | nil => rfl
  | cons m ms ih =>
    rw [lookupModel_cons] at h
    by_cases hn : m.Name = n
    · simp [hn] at h
    · simp only [hn, if_false] at h
      simp only [markModel, hn, if_false, ih h]

theorem markModel_of_flag (fl : FlagKind) (n : String) (ms : List Model) (m : Model)
    (h : lookupModel ms n = some m) (hf : m.flag fl = true) : markModel fl n ms = ms := by
  induction ms with
  | nil => rfl
  | cons m0 ms ih =>
    rw [lookupModel_cons] at h
    by_cases hn : m0.Name = n
    · simp only [hn, if_true, Option.some.injEq] at h
      subst h
      simp only [markModel, hn, if_true, Model.setFlag_of_flag _ _ hf]
    · simp only [hn, if_false] at h
      simp only [markModel, hn, if_false, ih h]

theorem unflagged_markModel (fl : FlagKind) (n : String) (ms : List Model) (m : Model)
    (h : lookupModel ms n = some m) (hf : m.flag fl = false) :
    unflagged fl (markModel fl n ms) + 1 = unflagged fl ms := by
  induction ms with
  | nil => simp [lookupModel_nil] at h
  | cons m0 ms ih =>
    rw [lookupModel_cons] at h
    by_cases hn : m0.Name = n
    · simp only [hn, if_true, Option.some.injEq] at h
      subst h
      have h1 : (m0.setFlag fl).flag fl = true := by rw [Model.setFlag_flag, if_pos rfl]
      simp [markModel, hn, unflagged, List.filter_cons, h1, hf]
    · simp only [hn, if_false] at h
      have := ih h
      simp only [unflagged] at this ⊢
      simp only [markModel, hn, if_false, List.filter_cons]
      split
      · simp only [List.length_cons]
        omega
      · exact this

theorem mem_markModel {fl : FlagKind} {n : String} {ms : List Model} {m1 : Model}
    (h : m1 ∈ markModel fl n ms) : m1 ∈ ms ∨ ∃ m ∈ ms, m.Name = n ∧ m1 = m.setFlag fl := by
  induction ms with
  | nil => simp [markModel] at h
  | cons m0 ms ih =>
    unfold markModel at h
    by_cases hn : m0.Name = n
    · simp only [hn, if_true] at h
      rcases List.mem_cons.1 h with h1 | h1
      · exact Or.inr ⟨m0, by simp, hn, h1⟩
      · exact Or.inl (by simp [h1])
    · simp only [hn, if_false] at h
      rcases List.mem_cons.1 h with h1 | h1
      · exact Or.inl (by simp [h1])
      · rcases ih h1 with h2 | ⟨m, hm, hm1, hm2⟩
        · exact Or.inl (by simp [h2])
        · exact Or.inr ⟨m, by simp [hm], hm1, hm2⟩

/-! ### One propagation pass -/

theorem foldl_fixed {S α : Type} (step : S → α → S) (len : S → Nat)
    (hmono : ∀ st x, len st ≤ len (step st x))
    (hfix : ∀ st x, len (step st x) = len st → step st x = st)
    (xs : List α) (st : S) (h : len (xs.foldl step st) = len st) :
    xs.foldl step st = st ∧ ∀ x ∈ xs, step st x = st := by
  have hmonoF : ∀ (ys : List α) (s : S), len s ≤ len (ys.foldl step s) := by
    intro ys
    induction ys with
    | nil => intro s; exact Nat.le_refl _
    | cons y ys ih => intro s; exact Nat.le_trans (hmono s y) (ih (step s y))
  induction xs with
  | nil => exact ⟨rfl, by simp⟩
  | cons x xs ih =>
    rw [List.foldl_cons] at h
    have h1 : len (step st x) = len st :=
      Nat.le_antisymm (h ▸ hmonoF xs (step st x)) (hmono st x)
    have h2 : step st x = st := hfix st x h1
    rw [h2] at h
    obtain ⟨h3, h4⟩ := ih h
    refine ⟨by rw [List.foldl_cons, h2]; exact h3, ?_⟩
    intro y hy
    rcases List.mem_cons.1 hy with e | e
    · rw [e]; exact h2
    · exact h4 y e

theorem foldl_of_fixed {S α : Type} (step : S → α → S) (xs : List α) (st : S)
    (h : ∀ x ∈ xs, step st x = st) : xs.foldl step st = st := by
  induction xs with
  | nil => rfl
  | cons x xs ih =>
    rw [List.foldl_cons, h x (by simp)]
    exact ih (fun y hy => h y (by simp [hy]))

theorem PassRel.pass_refl (fl : FlagKind) (st : List Model × List String) : PassRel fl st st :=
  ⟨forall₂_refl_of (Model.Step.step_refl fl) st.1, rfl, Nat.le_refl _, fun _ => rfl⟩

theorem PassRel.pass_trans {fl : FlagKind} {a b c : List Model × List String}
    (h1 : PassRel fl a b) (h2 : PassRel fl b c) : PassRel fl a c := by
  obtain ⟨a1, a2, a3, a4⟩ := h1
  obtain ⟨b1, b2, b3, b4⟩ := h2
  refine ⟨@forall₂_trans_of (Model.Step fl) (fun _ _ _ h h1 => Model.Step.step_trans h h1) _ _ _ a1 b1,
    by omega, by omega, ?_⟩
  intro h
  have hb : c.2.length = b.2.length := by omega
  have ha : b.2.length = a.2.length := by omega
  rw [b4 hb, a4 ha]

theorem visitField_rel (fl : FlagKind) (st : List Model × List String) (f : ModelField) :
    PassRel fl st (visitField fl st f) := by
  unfold visitField
  split
  · split
    · rename_i n hn
      split
      · exact PassRel.pass_refl fl st
      · rename_i hflag
        have hflag2 : n.flag fl = false := by simpa using hflag
        refine ⟨markModel_step fl _ _, ?_, by simp, ?_⟩
        · have := unflagged_markModel fl f.Type_ st.1 n hn hflag2
          simp only [List.length_append, List.length_singleton]
          omega
        · intro h
          simp at h
    · exact PassRel.pass_refl fl st
  · exact PassRel.pass_refl fl st

theorem visitField_fixed_iff (fl : FlagKind) (st : List Model × List String) (f : ModelField) :
    visitField fl st f = st
      ↔ (f.IsMessage = true → ∀ n, lookupModel st.1 f.Type_ = some n → n.flag fl = true) := by
  unfold visitField
  constructor
  · intro h hm n hn
    simp only [hm, if_true, hn] at h
    by_contra hflag
    simp only [hflag, if_false] at h
    have := congrArg (fun s => s.2.length) h
    simp at this
  · intro h
    by_cases hm : f.IsMessage = true
    · simp only [hm, if_true]
      cases hn : lookupModel st.1 f.Type_ with
      | none => rfl
      | some n => simp [h hm n hn]
    · simp [hm]

theorem visitModel_rel (fl : FlagKind) (st : List Model × List String) (i : Nat) :
    PassRel fl st (visitModel fl st i) := by
  unfold visitModel
  split
  · split
    · exact foldl_invariant (fun s => PassRel fl st s) _ _ _ (PassRel.pass_refl fl st)
        (fun b a _ hb => PassRel.pass_trans hb (visitField_rel fl b a))
    · exact PassRel.pass_refl fl st
  · exact PassRel.pass_refl fl st

theorem visitModel_fixed_iff (fl : FlagKind) (st : List Model × List String) (i : Nat) :
    visitModel fl st i = st
      ↔ (∀ m, st.1[i]? = some m → m.flag fl = true → ∀ f ∈ m.Fields, f.IsMessage = true →
          ∀ n, lookupModel st.1 f.Type_ = some n → n.flag fl = true) := by
  unfold visitModel
  constructor
  · intro h m hm hflag f hf
    simp only [hm, hflag, if_true] at h
    have := foldl_fixed (visitField fl) (fun s => s.2.length)
      (fun s x => (visitField_rel fl s x).2.2.1)
      (fun s x hx => (visitField_rel fl s x).2.2.2 hx) m.Fields st (by rw [h])
    exact (visitField_fixed_iff fl st f).1 (this.2 f hf)
  · intro h
    cases hm : st.1[i]? with
    | none => rfl
    | some m =>
      by_cases hflag : m.flag fl = true
      · simp only [hflag, if_true]
        exact foldl_of_fixed _ _ _
          (fun f hf => (visitField_fixed_iff fl st f).2 (h m hm hflag f hf))
      · simp [hflag]

theorem propagatePass_rel (fl : FlagKind) (ms : List Model) :
    PassRel fl (ms, []) (propagatePass fl ms) :=
  foldl_invariant (fun s => PassRel fl (ms, []) s) _ _ _ (PassRel.pass_refl fl _)
    (fun b a _ hb => PassRel.pass_trans hb (visitModel_rel fl b a))

/-- A pass with an empty work set changed nothing and found a fixed point. -/
theorem propagatePass_nil {fl : FlagKind} {ms ms1 : List Model}
    (h : propagatePass fl ms = (ms1, [])) : ms1 = ms ∧ ClosedUnder fl ms := by
  have hlen : (fun s : List Model × List String => s.2.length)
      ((List.range ms.length).foldl (visitModel fl) (ms, [])) = 0 := by
    show (propagatePass fl ms).2.length = 0
    rw [h]
    rfl
  have := foldl_fixed (visitModel fl) (fun s => s.2.length)
    (fun s x => (visitModel_rel fl s x).2.2.1)
    (fun s x hx => (visitModel_rel fl s x).2.2.2 hx) (List.range ms.length) (ms, []) hlen
  obtain ⟨h1, h2⟩ := this
  constructor
  · have : propagatePass fl ms = (ms, []) := h1
    rw [h] at this
    exact congrArg Prod.fst this
  · intro m hm hflag f hf hmsg n hn
    obtain ⟨i, hi, hget⟩ := List.getElem_of_mem hm
    have hfix := h2 i (List.mem_range.2 hi)
    have hget2 : ms[i]? = some m := by rw [List.getElem?_eq_getElem hi, hget]
    exact (visitModel_fixed_iff fl (ms, []) i).1 hfix m hget2 hflag f hf hmsg n hn

/-- On a fixed point a pass changes nothing and its work set is empty. -/
theorem propagatePass_of_closed {fl : FlagKind} {ms : List Model} (h : ClosedUnder fl ms) :
    propagatePass fl ms = (ms, []) := by
  unfold propagatePass
  apply foldl_of_fixed
  intro i _
  apply (visitModel_fixed_iff fl (ms, []) i).2
  intro m hm hflag f hf hmsg n hn
  exact h m (List.getElem?_mem hm) hflag f hf hmsg n hn

/-! ### Repeating the pass -/

theorem unflagged_le_length (fl : FlagKind) (ms : List Model) : unflagged fl ms ≤ ms.length :=
  List.length_filter_le _ ms

theorem propagateFlags_succ (fl : FlagKind) (k : Nat) (ms : List Model) :
    propagateFlags fl (k + 1) ms
      = if (propagatePass fl ms).2 = [] then (propagatePass fl ms).1
        else propagateFlags fl k (propagatePass fl ms).1 := by
  rw [propagateFlags]
  rcases hp : propagatePass fl ms with ⟨ms1, c⟩
  cases c <;> simp

theorem propagateFlags_step (fl : FlagKind) (k : Nat) (ms : List Model) :
    List.Forall₂ (Model.Step fl) ms (propagateFlags fl k ms) := by
  induction k generalizing ms with
  | zero => exact forall₂_refl_of (Model.Step.step_refl fl) ms
  | succ k ih =>
    rw [propagateFlags_succ]
    have h := (propagatePass_rel fl ms).1
    split
    · exact h
    · exact @forall₂_trans_of (Model.Step fl) (fun _ _ _ h h1 => Model.Step.step_trans h h1) _ _ _
        h (ih _)

/-- With more rounds than Models without the flag, the loop ends on a fixed
point. -/
theorem propagateFlags_closed (fl : FlagKind) (k : Nat) (ms : List Model)
    (hk : unflagged fl ms < k) : ClosedUnder fl (propagateFlags fl k ms) := by
  induction k generalizing ms with
  | zero => exact absurd hk (Nat.not_lt_zero _)
  | succ k ih =>
    rw [propagateFlags_succ]
    rcases hp : propagatePass fl ms with ⟨ms1, c⟩
    have hrel := propagatePass_rel fl ms
    rw [hp] at hrel
    cases c with
    | nil =>
      obtain ⟨h1, h2⟩ := propagatePass_nil hp
      simp only [if_true]
      rw [h1]
      exact h2
    | cons x c =>
      have hsum := hrel.2.1
      simp only [List.length_cons, List.length_nil] at hsum
      simp only [reduceCtorEq, if_false]
      exact ih ms1 (by omega)

theorem propagateFlags_of_closed (fl : FlagKind) (k : Nat) (ms : List Model)
    (h : ClosedUnder fl ms) : propagateFlags fl k ms = ms := by
  cases k with
  | zero => rfl
  | succ k => rw [propagateFlags_succ, propagatePass_of_closed h]; rfl

/-- The loop of `ApplyMarshalFlags` always leaves through a pass that changes
nothing: one more pass over its result has an empty work set. -/
theorem propagateFlags_stable (fl : FlagKind) (ms : List Model) :
    propagatePass fl (propagateFlags fl (ms.length + 1) ms)
      = (propagateFlags fl (ms.length + 1) ms, []) :=
  propagatePass_of_closed
    (propagateFlags_closed fl _ ms (Nat.lt_succ_of_le (unflagged_le_length fl ms)))

theorem Model.Step.flag_other {g fl : FlagKind} {a b : Model} (h : Model.Step g a b)
    (hne : fl ≠ g) : b.flag fl = a.flag fl :=
  h.2.2.1 fl hne

/-- Updating the other flag keeps a fixed point. -/
theorem ClosedUnder.closed_of_step_other {g fl : FlagKind} {ms ms1 : List Model} (hne : fl ≠ g)
    (hstep : List.Forall₂ (Model.Step g) ms ms1) (h : ClosedUnder fl ms) :
    ClosedUnder fl ms1 := by
  intro m1 hm1 hflag f hf hmsg n1 hn1
  obtain ⟨m, hm, hs⟩ := forall₂_mem_right hstep hm1
  obtain ⟨n, hn, hs2⟩ := (lookupModel_forall₂ (fun a b (r : Model.Step g a b) => r.1) hstep
    f.Type_).2 n1 hn1
  rw [hs2.flag_other hne]
  refine h m hm ?_ f ?_ hmsg n hn
  · rw [← hs.flag_other hne]
    exact hflag
  · rw [← hs.2.1]
    exact hf

/-! ### The seed phase -/

theorem grows_list_refl (ms : List Model) : List.Forall₂ Model.Grows ms ms :=
  forall₂_refl_of Model.Grows.grows_refl ms

theorem grows_list_trans {l1 l2 l3 : List Model} (h1 : List.Forall₂ Model.Grows l1 l2)
    (h2 : List.Forall₂ Model.Grows l2 l3) : List.Forall₂ Model.Grows l1 l3 :=
  @forall₂_trans_of Model.Grows (fun _ _ _ h h1 => Model.Grows.grows_trans h h1) _ _ _ h1 h2

theorem grows_of_step {fl : FlagKind} {l1 l2 : List Model}
    (h : List.Forall₂ (Model.Step fl) l1 l2) : List.Forall₂ Model.Grows l1 l2 :=
  @forall₂_mono_of (Model.Step fl) Model.Grows (fun _ _ h => Model.Step.grows h) _ _ h

theorem lookupModel_grows {l1 l2 : List Model} (h : List.Forall₂ Model.Grows l1 l2) (k : String) :
    (∀ m, lookupModel l1 k = some m → ∃ m1, lookupModel l2 k = some m1 ∧ Model.Grows m m1)
      ∧ (∀ m1, lookupModel l2 k = some m1 → ∃ m, lookupModel l1 k = some m ∧ Model.Grows m m1) :=
  lookupModel_forall₂ (fun _ _ (r : Model.Grows _ _) => r.1) h k

theorem seedMethod_eq (ms : List Model) (meth : ServiceMethod) :
    seedMethod ms meth
      = markModel .unmarshal meth.OutputType (markModel .marshal meth.InputType ms) := by
  unfold seedMethod
  cases h : lookupModel ms meth.InputType with
  | none =>
    simp only []
    rw [markModel_of_none _ _ _ h]
    cases h1 : lookupModel ms meth.OutputType with
    | none => exact (markModel_of_none _ _ _ h1).symm
    | some m => rfl
  | some m =>
    simp only []
    cases h1 : lookupModel (markModel .marshal meth.InputType ms) meth.OutputType with
    | none => exact (markModel_of_none _ _ _ h1).symm
    | some m => rfl

theorem seedMethod_grows (ms : List Model) (meth : ServiceMethod) :
    List.Forall₂ Model.Grows ms (seedMethod ms meth) := by
  rw [seedMethod_eq]
  exact grows_list_trans (grows_of_step (markModel_step _ _ _))
    (grows_of_step (markModel_step _ _ _))

theorem seedMethod_seeded (ms : List Model) (meth : ServiceMethod) :
    MethodSeeded meth (seedMethod ms meth) := by
  intro fl m hm
  rw [seedMethod_eq, lookupModel_markModel, lookupModel_markModel] at hm
  cases fl with
  | marshal =>
    simp only [ServiceMethod.seedType] at hm
    cases h0 : lookupModel ms meth.InputType with
    | none => simp [h0] at hm
    | some m0 =>
      simp only [h0, Option.map_some', if_true, Option.some.injEq] at hm
      rw [← hm]
      split
      · simp [Model.setFlag_flag]
      · simp [Model.setFlag_flag]
  | unmarshal =>
    simp only [ServiceMethod.seedType] at hm
    cases h0 : lookupModel ms meth.OutputType with
    | none => simp [h0] at hm
    | some m0 =>
      simp only [h0, Option.map_some', if_true, Option.some.injEq] at hm
      rw [← hm]
      simp [Model.setFlag_flag]

theorem MethodSeeded.of_grows {meth : ServiceMethod} {l1 l2 : List Model}
    (hg : List.Forall₂ Model.Grows l1 l2) (h : MethodSeeded meth l1) : MethodSeeded meth l2 := by
  intro fl m1 hm1
  obtain ⟨m, hm, hr⟩ := (lookupModel_grows hg _).2 m1 hm1
  exact hr.flag fl (h fl m hm)

theorem seedMethod_of_seeded (ms : List Model) (meth : ServiceMethod)
    (h : MethodSeeded meth ms) : seedMethod ms meth = ms := by
  have h1 : markModel .marshal meth.InputType ms = ms := by
    cases h0 : lookupModel ms meth.InputType with
    | none => exact markModel_of_none _ _ _ h0
    | some m => exact markModel_of_flag _ _ _ m h0 (h .marshal m h0)
  rw [seedMethod_eq, h1]
  cases h0 : lookupModel ms meth.OutputType with
  | none => exact markModel_of_none _ _ _ h0
  | some m => exact markModel_of_flag _ _ _ m h0 (h .unmarshal m h0)

/-- A fold of growing steps that each establish a property kept by growth
establishes it for every element. -/
theorem foldl_establishes {α : Type} (step : List Model → α → List Model)
    (P : α → List Model → Prop)
    (hgrow : ∀ b a, List.Forall₂ Model.Grows b (step b a))
    (hest : ∀ b a, P a (step b a))
    (hpres : ∀ a b b1, List.Forall₂ Model.Grows b b1 → P a b → P a b1)
    (l : List α) (b : List Model) :
    List.Forall₂ Model.Grows b (l.foldl step b) ∧ ∀ a ∈ l, P a (l.foldl step b) := by
  induction l generalizing b with
  | nil => exact ⟨grows_list_refl b, by simp⟩
  | cons x l ih =>
    obtain ⟨h1, h2⟩ := ih (step b x)
    refine ⟨grows_list_trans (hgrow b x) h1, ?_⟩
    intro a ha
    rcases List.mem_cons.1 ha with e | e
    · rw [e]
      exact hpres x _ _ h1 (hest b x)
    · exact h2 a e

theorem seedMethods_spec (meths : List ServiceMethod) (ms : List Model) :
    List.Forall₂ Model.Grows ms (meths.foldl seedMethod ms)
      ∧ ∀ meth ∈ meths, MethodSeeded meth (meths.foldl seedMethod ms) :=
  foldl_establishes seedMethod MethodSeeded seedMethod_grows seedMethod_seeded
    (fun _ _ _ hg h => MethodSeeded.of_grows hg h) meths ms

theorem seedFlags_spec (svcs : List Service) (ms : List Model) :
    List.Forall₂ Model.Grows ms (seedFlags svcs ms)
      ∧ ∀ s ∈ svcs, ∀ meth ∈ s.Methods, MethodSeeded meth (seedFlags svcs ms) :=
  foldl_establishes (fun ms (s : Service) => s.Methods.foldl seedMethod ms)
    (fun s r => ∀ meth ∈ s.Methods, MethodSeeded meth r)
    (fun b s => (seedMethods_spec s.Methods b).1)
    (fun b s => (seedMethods_spec s.Methods b).2)
    (fun _ _ _ hg h meth hmeth => MethodSeeded.of_grows hg (h meth hmeth)) svcs ms

theorem seedFlags_of_seeded (svcs : List Service) (ms : List Model)
    (h : ∀ s ∈ svcs, ∀ meth ∈ s.Methods, MethodSeeded meth ms) : seedFlags svcs ms = ms := by
  unfold seedFlags
  apply foldl_of_fixed
  intro s hs
  apply foldl_of_fixed
  intro meth hmeth
  exact seedMethod_of_seeded ms meth (h s hs meth hmeth)

/-! ### The three phases together -/

/-- What `ApplyMarshalFlags` leaves: the Models have grown, every method is
seeded, and both flags are at a fixed point. -/
theorem ApplyMarshalFlags_spec (ctx : APIContext) :
    ctx.ApplyMarshalFlags.Services = ctx.Services
      ∧ List.Forall₂ Model.Grows ctx.Models ctx.ApplyMarshalFlags.Models
      ∧ (∀ s ∈ ctx.Services, ∀ meth ∈ s.Methods,
          MethodSeeded meth ctx.ApplyMarshalFlags.Models)
      ∧ ∀ fl, ClosedUnder fl ctx.ApplyMarshalFlags.Models := by
  obtain ⟨hg0, hs0⟩ := seedFlags_spec ctx.Services ctx.Models
  have hst1 := propagateFlags_step .marshal
    ((seedFlags ctx.Services ctx.Models).length + 1) (seedFlags ctx.Services ctx.Models)
  have hcl1 := propagateFlags_closed .marshal
    ((seedFlags ctx.Services ctx.Models).length + 1) (seedFlags ctx.Services ctx.Models)
    (Nat.lt_succ_of_le (unflagged_le_length _ _))
  have hst2 := propagateFlags_step .unmarshal
    ((propagateFlags .marshal ((seedFlags ctx.Services ctx.Models).length + 1)
      (seedFlags ctx.Services ctx.Models)).length + 1)
    (propagateFlags .marshal ((seedFlags ctx.Services ctx.Models).length + 1)
      (seedFlags ctx.Services ctx.Models))
  have hcl2 := propagateFlags_closed .unmarshal
    ((propagateFlags .marshal ((seedFlags ctx.Services ctx.Models).length + 1)
      (seedFlags ctx.Services ctx.Models)).length + 1)
    (propagateFlags .marshal ((seedFlags ctx.Services ctx.Models).length + 1)
      (seedFlags ctx.Services ctx.Models))
    (Nat.lt_succ_of_le (unflagged_le_length _ _))
  have hg12 := grows_list_trans (grows_of_step hst1) (grows_of_step hst2)
  refine ⟨rfl, grows_list_trans hg0 hg12, ?_, ?_⟩
  · intro s hs meth hmeth
    exact MethodSeeded.of_grows hg12 (hs0 s hs meth hmeth)
  · intro fl
    cases fl with
    | marshal => exact ClosedUnder.closed_of_step_other (by decide) hst2 hcl1
    | unmarshal => exact hcl2

/-! ### Only demanded Models receive a flag -/

theorem lookupModel_of_mem_nodup {ms : List Model} (hnd : (ms.map Model.Name).Nodup)
    {m : Model} (hm : m ∈ ms) : lookupModel ms m.Name = some m := by
  induction ms with
  | nil => simp at hm
  | cons m0 ms ih =>
    rw [List.map_cons, List.nodup_cons] at hnd
    rw [lookupModel_cons]
    rcases List.mem_cons.1 hm with e | e
    · simp [e]
    · have hne : m0.Name ≠ m.Name := by
        intro h
        exact hnd.1 (h ▸ List.mem_map_of_mem Model.Name e)
      simp only [hne, if_false]
      exact ih hnd.2 e

theorem lookupModel_isSome_of_mem {ms : List Model} {m : Model} (hm : m ∈ ms) :
    ∃ m0, lookupModel ms m.Name = some m0 := by
  induction ms with
  | nil => simp at hm
  | cons m0 ms ih =>
    rw [lookupModel_cons]
    by_cases h : m0.Name = m.Name
    · exact ⟨m0, by simp [h]⟩
    · simp only [h, if_false]
      rcases List.mem_cons.1 hm with e | e
      · exact absurd (e ▸ rfl) h
      · exact ih e

theorem APIContext.Demanded.of_seeded {ctx : APIContext} {fl : FlagKind} {n : String}
    (h : ctx.Seeded fl n) : ctx.Demanded fl n :=
  ⟨n, h, Relation.ReflTransGen.refl⟩

theorem APIContext.Demanded.field {ctx : APIContext} {fl : FlagKind} {a b : String}
    (h : ctx.Demanded fl a) (he : ctx.FieldEdge a b) : ctx.Demanded fl b := by
  obtain ⟨s, hs, hr⟩ := h
  exact ⟨s, hs, Relation.ReflTransGen.tail hr he⟩

theorem Justified.init (ctx : APIContext) (fl : FlagKind) (hu : ctx.UniqueNames) :
    Justified ctx fl ctx.Models := by
  refine ⟨grows_list_refl _, ?_⟩
  intro m hm hflag
  exact APIContext.Demanded.of_seeded (Or.inl ⟨m, lookupModel_of_mem_nodup hu hm, hflag⟩)

theorem Justified.mark {ctx : APIContext} {fl : FlagKind} {cur : List Model}
    (h : Justified ctx fl cur) (g : FlagKind) (n : String)
    (hd : g = fl → ∀ m, lookupModel cur n = some m → ctx.Demanded fl n) :
    Justified ctx fl (markModel g n cur) := by
  refine ⟨grows_list_trans h.1 (grows_of_step (markModel_step g n cur)), ?_⟩
  intro m1 hm1 hflag
  rcases mem_markModel hm1 with h1 | ⟨m, hm, hmn, hm1e⟩
  · exact h.2 m1 h1 hflag
  · have hname : m1.Name = n := by rw [hm1e, Model.setFlag_Name, hmn]
    by_cases hg : g = fl
    · obtain ⟨m0, hm0⟩ := lookupModel_isSome_of_mem hm
      rw [hmn] at hm0
      rw [hname]
      exact hd hg m0 hm0
    · have hflag2 : m.flag fl = true := by
        rw [hm1e, Model.setFlag_flag, if_neg (fun e => hg e.symm)] at hflag
        exact hflag
      rw [hname, ← hmn]
      exact h.2 m hm hflag2

theorem Justified.justified_of_step_other {ctx : APIContext} {fl g : FlagKind} {cur cur1 : List Model}
    (hne : fl ≠ g) (hstep : List.Forall₂ (Model.Step g) cur cur1) (h : Justified ctx fl cur) :
    Justified ctx fl cur1 := by
  refine ⟨grows_list_trans h.1 (grows_of_step hstep), ?_⟩
  intro m1 hm1 hflag
  obtain ⟨m, hm, hs⟩ := forall₂_mem_right hstep hm1
  rw [hs.1]
  refine h.2 m hm ?_
  rw [← hs.flag_other hne]
  exact hflag

theorem Justified.lookup_ctx {ctx : APIContext} {fl : FlagKind} {cur : List Model}
    (h : Justified ctx fl cur) {n : String} {m : Model} (hm : lookupModel cur n = some m) :
    ∃ m0, ctx.Lookup n = some m0 :=
  let ⟨m0, hm0, _⟩ := (lookupModel_grows h.1 n).2 m hm
  ⟨m0, hm0⟩

theorem Justified.after_seedMethod {ctx : APIContext} {fl : FlagKind} {cur : List Model}
    (h : Justified ctx fl cur) {s : Service} (hs : s ∈ ctx.Services) {meth : ServiceMethod}
    (hmeth : meth ∈ s.Methods) : Justified ctx fl (seedMethod cur meth) := by
  rw [seedMethod_eq]
  have h1 : Justified ctx fl (markModel .marshal meth.InputType cur) := by
    apply h.mark
    intro hg m hm
    subst hg
    exact APIContext.Demanded.of_seeded (Or.inr ⟨s, hs, meth, hmeth, rfl, h.lookup_ctx hm⟩)
  apply h1.mark
  intro hg m hm
  subst hg
  exact APIContext.Demanded.of_seeded (Or.inr ⟨s, hs, meth, hmeth, rfl, h1.lookup_ctx hm⟩)

theorem Justified.after_seedFlags {ctx : APIContext} {fl : FlagKind} (hu : ctx.UniqueNames) :
    Justified ctx fl (seedFlags ctx.Services ctx.Models) := by
  unfold seedFlags
  apply foldl_invariant (Justified ctx fl) _ _ _ (Justified.init ctx fl hu)
  intro b s hs hb
  apply foldl_invariant (Justified ctx fl) _ _ _ hb
  intro b1 meth hmeth hb1
  exact hb1.after_seedMethod hs hmeth

theorem Justified.after_visitField {ctx : APIContext} {fl : FlagKind}
    {st : List Model × List String} (h : Justified ctx fl st.1) (f : ModelField)
    (hd : f.IsMessage = true → (∃ m2, ctx.Lookup f.Type_ = some m2) →
      ctx.Demanded fl f.Type_) :
    Justified ctx fl (visitField fl st f).1 := by
  unfold visitField
  split
  · rename_i hmsg
    split
    · rename_i n hn
      split
      · exact h
      · exact h.mark fl f.Type_ (fun _ m hm => hd hmsg (h.lookup_ctx hm))
    · exact h
  · exact h

theorem Justified.after_visitModel {ctx : APIContext} {fl : FlagKind} (hu : ctx.UniqueNames)
    {st : List Model × List String} (h : Justified ctx fl st.1) (i : Nat) :
    Justified ctx fl (visitModel fl st i).1 := by
  unfold visitModel
  split
  · rename_i m hm
    split
    · rename_i hflag
      have hmem : m ∈ st.1 := List.getElem?_mem hm
      have hdm : ctx.Demanded fl m.Name := h.2 m hmem hflag
      obtain ⟨m0, hm0, hg⟩ := forall₂_mem_right h.1 hmem
      have hl0 : ctx.Lookup m.Name = some m0 := by
        rw [hg.1]
        exact lookupModel_of_mem_nodup hu hm0
      apply foldl_invariant (fun s : List Model × List String => Justified ctx fl s.1) _ _ _ h
      intro b f hf hb
      apply hb.after_visitField f
      intro hmsg hreg
      exact hdm.field ⟨m0, f, hl0, by rw [← hg.2.1]; exact hf, hmsg, rfl, hreg⟩
    · exact h
  · exact h

theorem Justified.after_propagatePass {ctx : APIContext} {fl : FlagKind}
    (hu : ctx.UniqueNames) {ms : List Model} (h : Justified ctx fl ms) :
    Justified ctx fl (propagatePass fl ms).1 := by
  unfold propagatePass
  apply foldl_invariant (fun s : List Model × List String => Justified ctx fl s.1) _ _ _ h
  intro b i _ hb
  exact hb.after_visitModel hu i

theorem Justified.after_propagateFlags {ctx : APIContext} {fl : FlagKind}
    (hu : ctx.UniqueNames) (k : Nat) {ms : List Model} (h : Justified ctx fl ms) :
    Justified ctx fl (propagateFlags fl k ms) := by
  induction k generalizing ms with
  | zero => exact h
  | succ k ih =>
    rw [propagateFlags_succ]
    split
    · exact h.after_propagatePass hu
    · exact ih (h.after_propagatePass hu)

/-- With unique names, every flag that `ApplyMarshalFlags` leaves on a Model
is demanded. -/
theorem ApplyMarshalFlags_justified (ctx : APIContext) (hu : ctx.UniqueNames) (fl : FlagKind) :
    Justified ctx fl ctx.ApplyMarshalFlags.Models := by
  have h0 : ∀ g, Justified ctx g (seedFlags ctx.Services ctx.Models) :=
    fun g => Justified.after_seedFlags hu
  cases fl with
  | marshal =>
    exact Justified.justified_of_step_other (by decide) (propagateFlags_step .unmarshal _ _)
      ((h0 .marshal).after_propagateFlags hu _)
  | unmarshal =>
    exact (Justified.justified_of_step_other (by decide) (propagateFlags_step .marshal _ _)
      (h0 .unmarshal)).after_propagateFlags hu _

/-! ### The test context -/

namespace ClientTest

theorem ctx_unique : ctx.UniqueNames := by
  show (ctx.Models.map Model.Name).Nodup
  decide

theorem mem_models {m : Model} (h : m ∈ ctx.Models) : m = nested ∨ m = bar ∨ m = baz := by
  have : ctx.Models = [nested, bar, baz] := rfl
  rw [this] at h
  simpa using h

/-- In the test context only `Bar` and `Nested` are demanded for `CanMarshal`. -/
theorem demanded_marshal {n : String} (h : ctx.Demanded .marshal n) :
    n = "Bar" ∨ n = "Nested" := by
  obtain ⟨a, ha, hr⟩ := h
  induction hr with
  | refl =>
    rcases ha with ⟨m, hm, hflag⟩ | ⟨s0, hs, meth, hmeth, ht, _⟩
    · have hn := lookupModel_name hm
      rcases mem_models (lookupModel_mem hm) with e | e | e
      · rw [e] at hflag
        exact absurd hflag (by decide)
      · rw [e] at hn
        exact Or.inl hn.symm
      · rw [e] at hflag
        exact absurd hflag (by decide)
    · have hs2 : s0 = s := by
        have : ctx.Services = [s] := rfl
        rw [this] at hs
        simpa using hs
      rw [hs2] at hmeth
      have hm2 : meth = call := by
        have : s.Methods = [call] := rfl
        rw [this] at hmeth
        simpa using hmeth
      rw [hm2] at ht
      exact Or.inl ht.symm
  | @tail b c _ hedge _ =>
    obtain ⟨mb, f, hmb, hf, _, ht, _⟩ := hedge
    rcases mem_models (lookupModel_mem hmb) with e | e | e
    · rw [e] at hf
      exact absurd hf (by simp [nested])
    · rw [e] at hf
      have hf2 : f = { Name := "nested", Type_ := "Nested", IsMessage := true } := by
        simpa [bar, nested] using hf
      rw [hf2] at ht
      exact Or.inr ht.symm
    · rw [e] at hf
      exact absurd hf (by simp [baz])

theorem baz_not_demanded : ¬ ctx.Demanded .marshal "Baz" := by
  intro h
  rcases demanded_marshal h with e | e <;> exact absurd e (by decide)

end ClientTest

/-! ### The round budget is never the reason for stopping -/

/-- Any two budgets above the number of Models without the flag give the same
result. -/
theorem propagateFlags_rounds (fl : FlagKind) (k k1 : Nat) (ms : List Model)
    (hk : unflagged fl ms < k) (hk1 : unflagged fl ms < k1) :
    propagateFlags fl k ms = propagateFlags fl k1 ms := by
  induction k generalizing ms k1 with
  | zero => exact absurd hk (Nat.not_lt_zero _)
  | succ k ih =>
    cases k1 with
    | zero => exact absurd hk1 (Nat.not_lt_zero _)
    | succ k1 =>
      rw [propagateFlags_succ, propagateFlags_succ]
      rcases hp : propagatePass fl ms with ⟨ms1, c⟩
      have hrel := propagatePass_rel fl ms
      rw [hp] at hrel
      cases c with
      | nil => simp
      | cons x c =>
        have hsum := hrel.2.1
        simp only [List.length_cons, List.length_nil] at hsum
        simp only [reduceCtorEq, if_false]
        exact ih k1 ms1 (by omega) (by omega)

/-! ### `generate` and its calls to the renderer -/

namespace GoPath

/-- The extension is a suffix of the path. -/
theorem Ext_suffix (path : String) : (Ext path).data <:+ path.data := by
  show extLoop path.data path.data.length <:+ path.data
  rcases extLoop_spec path.data path.data.length with h | ⟨j, _, h, _⟩
  · rw [h]
    exact List.nil_suffix
  · rw [h]
    exact List.drop_suffix _ _

/-- The base name of a path with an extension is its own base name. -/
theorem Base_Base_of_ext (path : String) (h : Ext path ≠ "") :
    Base (Base path) = Base path ∧ Ext (Base path) = Ext path := by
  obtain ⟨file, hne, hslash, hbase, hext⟩ := Base_of_ext path h
  rw [hbase]
  exact ⟨Base_of_file ⟨file⟩ [] file hne hslash (Or.inl rfl), hext⟩

end GoPath

theorem twirpFilename_isSome (pfx fullPath : String) : ∃ r, twirpFilename pfx fullPath = some r := by
  unfold twirpFilename
  simp only [sliceTo_base_ext]
  split
  · exact ⟨_, rfl⟩
  · exact ⟨_, rfl⟩

theorem dartFilename_isSome (name : String) : ∃ r, dartFilename name = some r := by
  by_cases h : GoPath.Ext name = ".proto" ∨ GoPath.Ext name = ".protodevel"
  · obtain ⟨stem, _, hr⟩ := dartFilename_recognised name h
    exact ⟨_, hr⟩
  · exact ⟨_, dartFilename_unrecognised name h⟩

theorem dartFilename_of_base (name : String)
    (h : GoPath.Ext name = ".proto" ∨ GoPath.Ext name = ".protodevel") :
    dartFilename name = dartFilename (GoPath.Base name) := by
  have hne : GoPath.Ext name ≠ "" := by
    rcases h with h | h <;> rw [h] <;> decide
  obtain ⟨hbb, heb⟩ := GoPath.Base_Base_of_ext name hne
  have h2 : GoPath.Ext (GoPath.Base name) = ".proto"
      ∨ GoPath.Ext (GoPath.Base name) = ".protodevel" := by
    rw [heb]
    exact h
  unfold dartFilename
  simp only [h, h2, if_true, hbb]

theorem getParameters_single_piece (req : CodeGeneratorRequest) (k v rest : String)
    (hk : '=' ∉ k.data ∧ ',' ∉ k.data) (hv : '=' ∉ v.data ∧ ',' ∉ v.data)
    (hrest : ',' ∉ rest.data)
    (hparam : req.Parameter = some (k ++ "=" ++ v ++ "=" ++ rest)) :
    getParameters req = some [(k, v)] := by
  have hdata : (k ++ "=" ++ v ++ "=" ++ rest).data
      = k.data ++ '=' :: (v.data ++ '=' :: rest.data) := by
    simp [String.data_append]
  have hcomma : ',' ∉ (k ++ "=" ++ v ++ "=" ++ rest).data := by
    rw [hdata]
    simp [hk.2, hv.2, hrest]
  have hsplit : stringsSplit (k ++ "=" ++ v ++ "=" ++ rest) '='
      = k :: v :: (splitChars '=' rest.data).map String.mk := by
    unfold stringsSplit
    rw [hdata, splitChars_append_sep '=' k.data _ hk.1, splitChars_append_sep '=' v.data _ hv.1]
    rfl
  unfold getParameters
  rw [hparam]
  simp only [stringsSplit_no_sep ',' _ hcomma, getParametersLoop, hsplit]
  simp [Params.set]

/-! ### Single iterations of the loop of `Clean`, rooted or not -/

namespace GoPath

theorem cleanLoop_skip_slash (rooted : Bool) (fuel : Nat) (rest out : List Char) (dd : Nat)
    (hfuel : ('/' :: rest).length ≤ fuel) :
    cleanLoop rooted fuel ('/' :: rest) out dd = cleanLoop rooted rest.length rest out dd := by
  cases fuel with
  | zero => simp at hfuel
  | succ fuel =>
    simp only [cleanLoop, if_true]
    exact cleanLoop_fuel rooted _ _ _ _ _ (by simpa using hfuel) (Nat.le_refl _)

/-- A path element followed by the end of the path or a slash is not closed
by what follows. -/
theorem not_closed_of_nonempty (l rest : List Char) (hl : l ≠ []) (hall : ∀ a ∈ l, a ≠ '/') :
    ¬ (l ++ rest = [] ∨ (l ++ rest).head? = some '/') := by
  obtain ⟨a, l1, rfl⟩ := List.exists_cons_of_ne_nil hl
  have : a ≠ '/' := hall a (by simp)
  simp [this]

theorem cleanLoop_real (rooted : Bool) (fuel : Nat) (seg rest out : List Char) (dd : Nat)
    (hseg : RealElem seg) (hrest : rest = [] ∨ ∃ t, rest = '/' :: t)
    (hfuel : (seg ++ rest).length ≤ fuel) :
    cleanLoop rooted fuel (seg ++ rest) out dd
      = cleanLoop rooted rest.length rest (out ++ sepOf rooted out ++ seg) dd := by
  obtain ⟨hne, hslash, hdot, hdotdot⟩ := hseg
  obtain ⟨c, t0, rfl⟩ := List.exists_cons_of_ne_nil hne
  cases fuel with
  | zero => simp at hfuel
  | succ fuel =>
    have hc : c ≠ '/' := fun e => hslash (by simp [e])
    have ht0 : ∀ a ∈ t0, a ≠ '/' :=
      fun a ha e => hslash (by rw [← e]; exact List.mem_cons_of_mem _ ha)
    have h2 : ¬ (c = '.' ∧ (t0 ++ rest = [] ∨ (t0 ++ rest).head? = some '/')) := by
      rintro ⟨hc1, hc2⟩
      have : t0 ≠ [] := fun e => hdot (by simp [hc1, e])
      exact not_closed_of_nonempty t0 rest this ht0 hc2
    have h3 : ¬ (c = '.' ∧ (t0 ++ rest).head? = some '.'
        ∧ ((t0 ++ rest).tail = [] ∨ (t0 ++ rest).tail.head? = some '/')) := by
      rintro ⟨hc1, hc2, hc3⟩
      cases t0 with
      | nil => exact hdot (by simp [hc1])
      | cons b t1 =>
        have hb : b = '.' := by simpa using hc2
        have : t1 ≠ [] := fun e => hdotdot (by simp [hc1, hb, e])
        exact not_closed_of_nonempty t1 rest this (fun a ha => ht0 a (by simp [ha]))
          (by simpa using hc3)
    have htake : (t0 ++ rest).takeWhile (fun x => decide (x ≠ '/')) = t0 := by
      rw [List.takeWhile_append_of_pos (by simpa using ht0)]
      rcases hrest with h | ⟨t, h⟩ <;> simp [h]
    have hdrop : (t0 ++ rest).dropWhile (fun x => decide (x ≠ '/')) = rest := by
      rw [List.dropWhile_append_of_pos (by simpa using ht0)]
      rcases hrest with h | ⟨t, h⟩ <;> simp [h]
    have hout : (if ((rooted && out.length != 1) || (!rooted && out.length != 0)) = true
        then out ++ ['/'] else out) = out ++ sepOf rooted out := by
      unfold sepOf
      split <;> simp
    rw [List.cons_append]
    simp only [cleanLoop, hc, if_false, h2, h3, htake, hdrop, hout]
    have hfuel2 : rest.length ≤ fuel := by
      simp only [List.length_append, List.length_cons] at hfuel
      omega
    rw [List.append_assoc]
    exact cleanLoop_fuel rooted _ _ _ _ _ hfuel2 (Nat.le_refl _)

theorem cleanLoop_dot (rooted : Bool) (fuel : Nat) (rest out : List Char) (dd : Nat)
    (hrest : rest = [] ∨ ∃ t, rest = '/' :: t) (hfuel : ('.' :: rest).length ≤ fuel) :
    cleanLoop rooted fuel ('.' :: rest) out dd = cleanLoop rooted rest.length rest out dd := by
  cases fuel with
  | zero => simp at hfuel
  | succ fuel =>
    have h1 : ('.' : Char) ≠ '/' := by decide
    have h2 : rest = [] ∨ rest.head? = some '/' := by
      rcases hrest with h | ⟨t, h⟩
      · exact Or.inl h
      · exact Or.inr (by simp [h])
    simp only [cleanLoop, h1, if_false, true_and, h2, if_true]
    exact cleanLoop_fuel rooted _ _ _ _ _ (by simpa using hfuel) (Nat.le_refl _)

theorem cleanLoop_up (fuel : Nat) (rest out : List Char) (dd : Nat)
    (hrest : rest = [] ∨ ∃ t, rest = '/' :: t) (hdd : ¬ dd < out.length)
    (hfuel : ('.' :: '.' :: rest).length ≤ fuel) :
    cleanLoop false fuel ('.' :: '.' :: rest) out dd
      = cleanLoop false rest.length rest
          ((if 0 < out.length then out ++ ['/'] else out) ++ ['.', '.'])
          ((if 0 < out.length then out ++ ['/'] else out) ++ ['.', '.']).length := by
  cases fuel with
  | zero => simp at hfuel
  | succ fuel =>
    have h1 : ('.' : Char) ≠ '/' := by decide
    have h2 : ¬ ('.' :: rest = [] ∨ ('.' :: rest).head? = some '/') := by simp
    have h3 : rest = [] ∨ rest.head? = some '/' := by
      rcases hrest with h | ⟨t, h⟩
      · exact Or.inl h
      · exact Or.inr (by simp [h])
    simp only [cleanLoop, h1, if_false, true_and, h2, List.head?_cons, List.tail_cons, h3,
      if_true, hdd, Bool.not_false]
    exact cleanLoop_fuel false _ _ _ _ _
      (by simp only [List.length_cons] at hfuel; omega) (Nat.le_refl _)

end GoPath

/-! ### The buffer of `Clean` always has the shape of a cleaned path -/

namespace GoPath

theorem CleanBuf.dotdot_le {rooted : Bool} {out : List Char} {dd : Nat}
    (h : CleanBuf rooted out dd) : dd ≤ out.length := by
  induction h with
  | empty _ => exact Nat.le_refl _
  | root _ => exact Nat.le_refl _
  | up _ _ _ _ _ _ => exact Nat.le_refl _
  | push out dd seg _ _ ih =>
    simp only [List.length_append]
    omega

theorem CleanBuf.dotdot_rooted {out : List Char} {dd : Nat} (h : CleanBuf true out dd) :
    dd = 1 ∧ out.head? = some '/' := by
  induction h with
  | empty hr => exact absurd hr (by decide)
  | root _ => exact ⟨rfl, rfl⟩
  | up _ _ hr _ _ _ => exact absurd hr (by decide)
  | push out dd seg _ _ ih =>
    refine ⟨ih.1, ?_⟩
    cases out with
    | nil => simp at ih
    | cons a t => simpa using ih.2

theorem backtrack_stop (buf : List Char) (dd x j : Nat) (hdd : dd ≤ x)
    (hx : dd = x ∨ buf[x]? = some '/')
    (hmid : ∀ i, x < i → i ≤ x + j → buf[i]? ≠ some '/') :
    backtrack buf dd (x + j) = x := by
  induction j with
  | zero =>
    cases x with
    | zero => rfl
    | succ w =>
      have : ¬ (dd < w + 1 ∧ buf[w + 1]? ≠ some '/') := by
        rintro ⟨h1, h2⟩
        rcases hx with h | h
        · omega
        · exact h2 h
      simp only [Nat.add_zero, backtrack, this, if_false]
  | succ j ih =>
    have h1 : dd < x + j + 1 := by omega
    have h2 : buf[x + j + 1]? ≠ some '/' := hmid (x + j + 1) (by omega) (by omega)
    have : x + (j + 1) = (x + j) + 1 := by omega
    rw [this, backtrack]
    simp only [h1, h2, ne_eq, not_false_eq_true, and_self, if_true]
    exact ih (fun i hi1 hi2 => hmid i hi1 (by omega))

/-- Backtracking over a buffer extended by a real path element gives back the
buffer before the extension. -/
theorem backtrack_push (rooted : Bool) (out seg : List Char) (dd : Nat)
    (h : CleanBuf rooted out dd) (hseg : RealElem seg) :
    (out ++ sepOf rooted out ++ seg).take
        (backtrack (out ++ sepOf rooted out ++ seg) dd
          ((out ++ sepOf rooted out ++ seg).length - 1)) = out := by
  obtain ⟨hne, hslash, _, _⟩ := hseg
  have hle := h.dotdot_le
  have hpos : 0 < seg.length := List.length_pos.2 hne
  have hsegget : ∀ i, i < seg.length → seg[i]? ≠ some '/' := by
    intro i _ e
    exact hslash (List.getElem?_mem e)
  by_cases hsep : sepOf rooted out = ['/']
  · rw [hsep]
    have hidx : (out ++ ['/'] ++ seg).length - 1 = out.length + seg.length := by
      simp only [List.length_append, List.length_singleton]
      omega
    have hbt : backtrack (out ++ ['/'] ++ seg) dd (out.length + seg.length) = out.length := by
      apply backtrack_stop _ _ _ _ hle
      · right
        rw [List.append_assoc, List.getElem?_append_right (Nat.le_refl _)]
        simp
      · intro i hi1 hi2
        rw [List.getElem?_append_right (by simp only [List.length_append, List.length_singleton]; omega)]
        simp only [List.length_append, List.length_singleton]
        exact hsegget _ (by omega)
    rw [hidx, hbt, List.append_assoc, List.take_left]
  · have hsep2 : sepOf rooted out = [] := by
      unfold sepOf at hsep ⊢
      split
      · rename_i hc
        simp [hc] at hsep
      · rfl
    have hddx : dd = out.length := by
      unfold sepOf at hsep2
      split at hsep2
      · simp at hsep2
      · rename_i hc
        cases rooted with
        | true =>
          have := h.dotdot_rooted.1
          simp at hc
          omega
        | false =>
          simp at hc
          rw [hc] at hle ⊢
          simpa using hle
    rw [hsep2, List.append_nil]
    have hidx : (out ++ seg).length - 1 = out.length + (seg.length - 1) := by
      simp only [List.length_append]
      omega
    have hbt : backtrack (out ++ seg) dd (out.length + (seg.length - 1)) = out.length := by
      apply backtrack_stop _ _ _ _ hle (Or.inl hddx)
      intro i hi1 hi2
      rw [List.getElem?_append_right (by omega)]
      exact hsegget _ (by omega)
    rw [hidx, hbt, List.take_left]

/-- The element the loop copies in its default case is a real path element. -/
theorem realElem_of_default (c : Char) (t : List Char) (hc : ¬ c = '/')
    (h2 : ¬ (c = '.' ∧ (t = [] ∨ t.head? = some '/')))
    (h3 : ¬ (c = '.' ∧ t.head? = some '.' ∧ (t.tail = [] ∨ t.tail.head? = some '/'))) :
    RealElem (c :: t.takeWhile (fun x => decide (x ≠ '/'))) := by
  refine ⟨by simp, ?_, ?_, ?_⟩
  · intro hmem
    rcases List.mem_cons.1 hmem with e | e
    · exact hc e.symm
    · have := List.mem_takeWhile_imp e
      simp at this
  · intro e
    simp only [List.cons.injEq] at e
    apply h2
    refine ⟨e.1, ?_⟩
    cases t with
    | nil => exact Or.inl rfl
    | cons b t1 =>
      right
      by_cases hb : b = '/'
      · simp [hb]
      · simp [List.takeWhile_cons, hb] at e
  · intro e
    simp only [List.cons.injEq] at e
    apply h3
    obtain ⟨e1, e2⟩ := e
    cases t with
    | nil => simp at e2
    | cons b t1 =>
      by_cases hb : b = '/'
      · simp [List.takeWhile_cons, hb] at e2
      · simp only [List.takeWhile_cons, ne_eq, hb, not_false_eq_true, decide_True, if_true,
          List.cons.injEq] at e2
        refine ⟨e1, by simp [e2.1], ?_⟩
        cases t1 with
        | nil => exact Or.inl rfl
        | cons b2 t2 =>
          right
          by_cases hb2 : b2 = '/'
          · simp [hb2]
          · simp [List.takeWhile_cons, hb2] at e2

/-- The loop of `Clean` keeps the buffer in the shape of a cleaned path. -/
theorem cleanLoop_buf (rooted : Bool) (fuel : Nat) (rest out : List Char) (dd : Nat)
    (h : CleanBuf rooted out dd) :
    ∃ dd1, CleanBuf rooted (cleanLoop rooted fuel rest out dd) dd1 := by
  induction fuel generalizing rest out dd with
  | zero => exact ⟨dd, h⟩
  | succ fuel ih =>
    cases rest with
    | nil => exact ⟨dd, h⟩
    | cons c t =>
      simp only [cleanLoop]
      split
      · exact ih _ _ _ h
      · rename_i hc
        split
        · exact ih _ _ _ h
        · rename_i h2
          split
          · split
            · rename_i hlt
              cases h with
              | empty _ => simp at hlt
              | root _ => simp at hlt
              | up out0 dd0 _ _ _ => exact absurd hlt (Nat.lt_irrefl _)
              | push out0 dd0 seg h0 hseg =>
                rw [backtrack_push rooted out0 seg dd h0 hseg]
                exact ih _ _ _ h0
            · rename_i hlt
              split
              · rename_i hr
                have hr2 : rooted = false := by simpa using hr
                have hlen : out.length = dd := Nat.le_antisymm (Nat.le_of_not_lt hlt) h.dotdot_le
                exact ih _ _ _ (CleanBuf.up out dd hr2 h hlen)
              · exact ih _ _ _ h
          · rename_i h3
            have hreal := realElem_of_default c t hc h2 h3
            have hout : (if ((rooted && out.length != 1) || (!rooted && out.length != 0)) = true
                then out ++ ['/'] else out) = out ++ sepOf rooted out := by
              unfold sepOf
              split <;> simp
            rw [hout]
            exact ih _ _ _ (CleanBuf.push out dd _ h hreal)

end GoPath

/-! ### Cleaning a cleaned path again -/

namespace GoPath

theorem CleanBuf.head_relative {out : List Char} {dd : Nat} (h : CleanBuf false out dd) :
    out.head? ≠ some '/' := by
  induction h with
  | empty _ => simp
  | root hr => exact absurd hr (by decide)
  | up out0 dd0 _ _ _ ih =>
    cases out0 with
    | nil => simp
    | cons a t => simpa using ih
  | push out0 dd0 seg _ hseg ih =>
    cases out0 with
    | nil =>
      obtain ⟨hne, hslash, _, _⟩ := hseg
      obtain ⟨c, t0, rfl⟩ := List.exists_cons_of_ne_nil hne
      have hc : c ≠ '/' := fun e => hslash (by simp [e])
      simp [sepOf, hc]
    | cons a t => simpa using ih

theorem CleanBuf.ne_dot {rooted : Bool} {out : List Char} {dd : Nat}
    (h : CleanBuf rooted out dd) : out ≠ ['.'] := by
  cases h with
  | empty _ => simp
  | root _ => simp
  | up out0 dd0 _ _ _ =>
    intro e
    have := congrArg List.length e
    simp only [List.length_append, List.length_cons, List.length_nil] at this
    omega
  | push out0 dd0 seg _ hseg =>
    obtain ⟨hne, _, hdot, _⟩ := hseg
    intro e
    have hlen := congrArg List.length e
    simp only [List.length_append, List.length_cons, List.length_nil] at hlen
    have hpos : 0 < seg.length := List.length_pos.2 hne
    have h0 : out0 = [] := List.length_eq_zero.1 (by omega)
    have h1 : sepOf rooted out0 = [] := List.length_eq_zero.1 (by omega)
    subst h0
    rw [h1] at e
    exact hdot (by simpa using e)

/-- Running the loop of `Clean` over the text of a cleaned buffer rebuilds the
buffer. -/
theorem cleanLoop_replay (rooted : Bool) (out : List Char) (dd : Nat)
    (h : CleanBuf rooted out dd) :
    ∀ (rest : List Char) (fuel : Nat),
      ((if rooted then out.drop 1 else out) = [] ∨ rest = [] ∨ ∃ t, rest = '/' :: t) →
      ((if rooted then out.drop 1 else out) ++ rest).length ≤ fuel →
      cleanLoop rooted fuel ((if rooted then out.drop 1 else out) ++ rest)
          (if rooted then ['/'] else []) (if rooted then 1 else 0)
        = cleanLoop rooted rest.length rest out dd := by
  induction h with
  | empty hr =>
    intro rest fuel _ hfuel
    subst hr
    simp only [Bool.false_eq_true, if_false, List.nil_append] at hfuel ⊢
    exact cleanLoop_fuel false _ _ _ _ _ hfuel (Nat.le_refl _)
  | root hr =>
    intro rest fuel _ hfuel
    subst hr
    simp only [if_true, List.drop_succ_cons, List.drop_zero, List.nil_append] at hfuel ⊢
    exact cleanLoop_fuel true _ _ _ _ _ hfuel (Nat.le_refl _)
  | up out0 dd0 hr h0 hlen ih =>
    intro rest fuel hrest hfuel
    subst hr
    simp only [Bool.false_eq_true, if_false] at hrest hfuel ih ⊢
    have hrest2 : rest = [] ∨ ∃ t, rest = '/' :: t := by
      rcases hrest with h | h
      · simp at h
      · exact h
    have hdd : ¬ dd0 < out0.length := by omega
    cases out0 with
    | nil =>
      simp only [List.length_nil, Nat.lt_irrefl, if_false, List.nil_append] at hfuel ⊢
      have hd0 : dd0 = 0 := by simpa using hlen.symm
      rw [show (['.', '.'] ++ rest) = '.' :: '.' :: rest from rfl] at hfuel ⊢
      rw [cleanLoop_up fuel rest [] 0 hrest2 (by simp) hfuel]
      simp
    | cons a t =>
      have hpos : 0 < (a :: t).length := by simp
      simp only [hpos, if_true] at hfuel ⊢
      have hshape : (a :: t) ++ ['/'] ++ ['.', '.'] ++ rest
          = (a :: t) ++ ('/' :: '.' :: '.' :: rest) := by simp
      rw [hshape] at hfuel ⊢
      rw [ih ('/' :: '.' :: '.' :: rest) fuel (Or.inr (Or.inr ⟨_, rfl⟩)) hfuel,
        cleanLoop_skip_slash false _ _ _ _ (Nat.le_refl _),
        cleanLoop_up _ rest (a :: t) dd0 hrest2 hdd (Nat.le_refl _)]
      simp only [hpos, if_true]
  | push out0 dd0 seg h0 hseg ih =>
    intro rest fuel hrest hfuel
    have hsegne : seg ≠ [] := hseg.1
    have htext : (if rooted then (out0 ++ sepOf rooted out0 ++ seg).drop 1
          else out0 ++ sepOf rooted out0 ++ seg)
        = (if rooted then out0.drop 1 else out0) ++ (sepOf rooted out0 ++ seg) := by
      cases rooted with
      | false => simp
      | true =>
        have hh := h0.dotdot_rooted.2
        cases out0 with
        | nil => simp at hh
        | cons a t => simp
    rw [htext] at hrest hfuel ⊢
    have hrest2 : rest = [] ∨ ∃ t, rest = '/' :: t := by
      rcases hrest with h | h
      · have := congrArg List.length h
        simp only [List.length_append, List.length_nil] at this
        have hpos : 0 < seg.length := List.length_pos.2 hsegne
        omega
      · exact h
    rw [List.append_assoc] at hfuel ⊢
    by_cases hsep : sepOf rooted out0 = ['/']
    · rw [ih (sepOf rooted out0 ++ seg ++ rest) fuel
        (Or.inr (Or.inr ⟨seg ++ rest, by rw [hsep]; rfl⟩)) (by simpa using hfuel)]
      have hshape : sepOf rooted out0 ++ seg ++ rest = '/' :: (seg ++ rest) := by
        rw [hsep]
        rfl
      rw [List.append_assoc] at hshape
      simp only [List.append_assoc, hshape]
      rw [cleanLoop_skip_slash rooted _ _ _ _ (Nat.le_refl _),
        cleanLoop_real rooted _ seg rest out0 dd0 hseg hrest2 (Nat.le_refl _), hsep]
      simp
    · have hsep2 : sepOf rooted out0 = [] := by
        unfold sepOf at hsep ⊢
        split
        · rename_i hc
          simp [hc] at hsep
        · rfl
      have htext0 : (if rooted then out0.drop 1 else out0) = [] := by
        unfold sepOf at hsep2
        split at hsep2
        · simp at hsep2
        · rename_i hc
          cases rooted with
          | true =>
            simp at hc
            simp only [if_true]
            exact List.drop_eq_nil_of_le (by omega)
          | false =>
            simp at hc
            simp [hc]
      rw [ih (sepOf rooted out0 ++ seg ++ rest) fuel (Or.inl htext0) (by simpa using hfuel)]
      simp only [hsep2, List.nil_append, List.append_nil]
      rw [cleanLoop_real rooted _ seg rest out0 dd0 hseg hrest2 (Nat.le_refl _), hsep2]
      simp

end GoPath

namespace GoPath

/-- The result of `Clean` is `.` or a non-empty cleaned buffer. -/
theorem Clean_shape (path : String) :
    Clean path = "." ∨ ∃ rooted out dd, CleanBuf rooted out dd ∧ out ≠ [] ∧ Clean path = ⟨out⟩ := by
  unfold Clean
  split
  · exact Or.inl rfl
  · by_cases hr : path.data.head? = some '/'
    · simp only [hr, decide_True, if_true]
      obtain ⟨dd1, hb⟩ := cleanLoop_buf true path.data.length (path.data.drop 1) ['/'] 1
        (CleanBuf.root rfl)
      split
      · exact Or.inl rfl
      · rename_i hne
        exact Or.inr ⟨true, _, dd1, hb, hne, rfl⟩
    · simp only [hr, decide_False, if_false, Bool.false_eq_true]
      obtain ⟨dd1, hb⟩ := cleanLoop_buf false path.data.length path.data [] 0
        (CleanBuf.empty rfl)
      split
      · exact Or.inl rfl
      · rename_i hne
        exact Or.inr ⟨false, _, dd1, hb, hne, rfl⟩

/-- Cleaning a cleaned buffer followed by a slash and a real path element
appends the element. -/
theorem Clean_buf_elem (rooted : Bool) (out : List Char) (dd : Nat)
    (h : CleanBuf rooted out dd) (hout : out ≠ []) (name : List Char) (hname : RealElem name) :
    Clean ⟨out ++ '/' :: name⟩ = ⟨out ++ sepOf rooted out ++ name⟩ := by
  obtain ⟨a, t, rfl⟩ := List.exists_cons_of_ne_nil hout
  have hne : (⟨a :: t ++ '/' :: name⟩ : String) ≠ "" := by
    intro e
    have := congrArg String.data e
    simp at this
  have hrun : cleanLoop rooted (a :: t ++ '/' :: name).length
      ((if rooted = true then (a :: t).drop 1 else a :: t) ++ '/' :: name)
      (if rooted = true then ['/'] else []) (if rooted = true then 1 else 0)
      = a :: t ++ sepOf rooted (a :: t) ++ name := by
    rw [cleanLoop_replay rooted (a :: t) dd h ('/' :: name) _
        (Or.inr (Or.inr ⟨name, rfl⟩))
        (by cases rooted <;> simp),
      cleanLoop_skip_slash rooted _ _ _ _ (Nat.le_refl _)]
    have := cleanLoop_real rooted name.length name [] (a :: t) dd hname (Or.inl rfl) (by simp)
    rw [List.append_nil] at this
    rw [this]
    simp [cleanLoop]
  have hres : a :: t ++ sepOf rooted (a :: t) ++ name ≠ [] := by simp
  unfold Clean
  rw [if_neg hne]
  cases rooted with
  | true =>
    have ha : a = '/' := by simpa using h.dotdot_rooted.2
    subst ha
    simp only [if_true, List.drop_succ_cons, List.drop_zero, List.cons_append] at hrun hres
    simp only [List.cons_append, List.head?_cons, decide_True, if_true, List.drop_succ_cons,
      List.drop_zero]
    rw [hrun, if_neg hres]
  | false =>
    have ha : ¬ ((a :: (t ++ '/' :: name)).head? = some '/') := by
      have := h.head_relative
      simpa using this
    simp only [Bool.false_eq_true, if_false, List.cons_append] at hrun hres
    simp only [List.cons_append, ha, decide_False, if_false, Bool.false_eq_true]
    rw [hrun, if_neg hres]

/-- Joining a cleaned directory and a real path element: the directory is
kept as it is. -/
theorem Join_Clean (x name : String) (hname : RealElem name.data) :
    Join [Clean x, name] = dirPrefix (Clean x) ++ name := by
  rcases Clean_shape x with h | ⟨rooted, out, dd, hb, hne, h⟩
  · rw [h]
    have h1 : Join [".", name] = Clean ⟨'.' :: '/' :: name.data⟩ :=
      Join_pair "." name (by decide)
    have hne : (⟨'.' :: '/' :: name.data⟩ : String) ≠ "" := by
      intro e
      have := congrArg String.data e
      simp at this
    have hrun : cleanLoop false ('.' :: '/' :: name.data).length ('.' :: '/' :: name.data) [] 0
        = name.data := by
      rw [cleanLoop_dot false _ _ _ _ (Or.inr ⟨_, rfl⟩) (Nat.le_refl _),
        cleanLoop_skip_slash false _ _ _ _ (Nat.le_refl _)]
      have := cleanLoop_real false name.data.length name.data [] [] 0 hname (Or.inl rfl) (by simp)
      rw [List.append_nil] at this
      rw [this]
      simp [cleanLoop, sepOf]
    have hnn : name.data ≠ [] := hname.1
    rw [h1]
    unfold Clean
    rw [if_neg hne]
    have hd : ¬ (('.' :: '/' :: name.data).head? = some '/') := by simp
    simp only [hd, decide_False, if_false, Bool.false_eq_true, hrun, hnn]
    apply String.ext
    simp [dirPrefix, String.data_append]
  · rw [h, Join_pair ⟨out⟩ name hne]
    show Clean ⟨out ++ '/' :: name.data⟩ = _
    rw [Clean_buf_elem rooted out dd hb hne name.data hname]
    have hdot : (⟨out⟩ : String) ≠ "." := fun e => hb.ne_dot (congrArg String.data e)
    apply String.ext
    by_cases hroot : (⟨out⟩ : String) = "/"
    · have ho : out = ['/'] := congrArg String.data hroot
      have hr : rooted = true := by
        cases rooted with
        | true => rfl
        | false =>
          have := hb.head_relative
          rw [ho] at this
          simp at this
      simp [dirPrefix, hdot, hroot, String.data_append, ho, hr, sepOf]
    · have hsep : sepOf rooted out = ['/'] := by
        cases rooted with
        | true =>
          have hh := hb.dotdot_rooted.2
          have hlen : out.length ≠ 1 := by
            intro hl
            apply hroot
            apply String.ext
            cases out with
            | nil => simp at hl
            | cons a t =>
              have ht : t = [] := List.length_eq_zero.1 (by simpa using hl)
              have ha : a = '/' := by simpa using hh
              rw [ht, ha]
          simp [sepOf, hlen]
        | false =>
          have hlen : out.length ≠ 0 := fun hl => hne (List.length_eq_zero.1 hl)
          simp [sepOf, hlen]
      simp [dirPrefix, hdot, hroot, String.data_append, hsep]

end GoPath

/-- The new base name is one real path element. -/
theorem twirp_base_real (pfx stem : String) (hp : '/' ∉ pfx.data) (hs : '/' ∉ stem.data) :
    GoPath.RealElem (pfx ++ "." ++ stem ++ ".twirp.swift").data := by
  have hnd : (pfx ++ "." ++ stem ++ ".twirp.swift").data
      = pfx.data ++ '.' :: (stem.data ++ ".twirp.swift".data) := by
    simp [String.data_append]
  have hlen : 13 ≤ (pfx ++ "." ++ stem ++ ".twirp.swift").data.length := by
    rw [hnd]
    simp only [List.length_append, List.length_cons]
    have : ".twirp.swift".data.length = 12 := by decide
    omega
  refine ⟨?_, ?_, ?_, ?_⟩
  · intro e
    rw [e] at hlen
    simp at hlen
  · rw [hnd]
    have : '/' ∉ ".twirp.swift".data := by decide
    simp [hp, hs, this]
  · intro e
    rw [e] at hlen
    simp at hlen
  · intro e
    rw [e] at hlen
    simp at hlen

/-- What `twirpFilename` returns for any path: the cleaned directory, then
the new base name. -/
theorem twirpFilename_cleaned_dir (pfx fullPath : String) (hp : '/' ∉ pfx.data) :
    ∃ stem, '/' ∉ stem.data
      ∧ twirpFilename pfx fullPath
        = some (GoPath.dirPrefix (GoPath.Clean (GoPath.Split fullPath).1)
            ++ (pfx ++ "." ++ stem ++ ".twirp.swift")) := by
  by_cases h : GoPath.Ext fullPath = ".proto" ∨ GoPath.Ext fullPath = ".protodevel"
  · have hne : GoPath.Ext fullPath ≠ "" := by
      rcases h with h | h <;> rw [h] <;> decide
    obtain ⟨file, _, hslash, hbase, _⟩ := GoPath.Base_of_ext fullPath hne
    have hstem : '/' ∉ (⟨file.take ((⟨file⟩ : String).length
        - (GoPath.Ext ⟨file⟩).length)⟩ : String).data :=
      fun hmem => hslash (List.mem_of_mem_take hmem)
    refine ⟨_, hstem, ?_⟩
    unfold twirpFilename
    simp only [h, if_true, hbase, sliceTo_base_ext, Option.map_some']
    have := GoPath.Join_Clean (GoPath.Split fullPath).1 _ (twirp_base_real pfx _ hp hstem)
    exact congrArg some this
  · refine ⟨"", by simp, ?_⟩
    unfold twirpFilename
    simp only [h, if_false, Option.map_some']
    have := GoPath.Join_Clean (GoPath.Split fullPath).1 _
      (twirp_base_real pfx "" hp (by simp))
    exact congrArg some this

/-! ## The claims -/

/-- C1. After `ApplyMarshalFlags`, every registered Model that had `CanMarshal`
beforehand or is the `InputType` of some method, and every registered Model
reachable from such a Model through a chain of message-typed fields naming
registered Models, has `CanMarshal = true`; the same holds for `CanUnmarshal`
with `OutputType` (`fl` selects the flag). -/
theorem ApplyMarshalFlags_flags_demanded (ctx : APIContext) (fl : FlagKind) (n : String)
    (h : ctx.Demanded fl n) :
    ∃ m, ctx.ApplyMarshalFlags.Lookup n = some m ∧ m.flag fl = true := by
  obtain ⟨_, hgrow, hseed, hclosed⟩ := ApplyMarshalFlags_spec ctx
  obtain ⟨a, ha, hreach⟩ := h
  induction hreach with
  | refl =>
    rcases ha with ⟨m, hm, hflag⟩ | ⟨s, hs, meth, hmeth, htype, m, hm⟩
    · obtain ⟨m1, hm1, hg⟩ := (lookupModel_grows hgrow a).1 m hm
      exact ⟨m1, hm1, hg.flag fl hflag⟩
    · obtain ⟨m1, hm1, _⟩ := (lookupModel_grows hgrow a).1 m hm
      refine ⟨m1, hm1, hseed s hs meth hmeth fl m1 ?_⟩
      rw [htype]
      exact hm1
  | @tail b c _ hedge ih =>
    obtain ⟨mb1, hmb1, hflag⟩ := ih
    obtain ⟨mb, f, hmb, hf, hmsg, htype, mc, hmc⟩ := hedge
    obtain ⟨mb2, hmb2, hgb⟩ := (lookupModel_grows hgrow b).1 mb hmb
    have hsame : mb2 = mb1 := Option.some.inj (hmb2.symm.trans hmb1)
    subst hsame
    obtain ⟨mc1, hmc1, _⟩ := (lookupModel_grows hgrow c).1 mc hmc
    refine ⟨mc1, hmc1, hclosed fl mb2 (lookupModel_mem hmb2) hflag f ?_ hmsg mc1 ?_⟩
    · rw [hgb.2.1]
      exact hf
    · rw [htype]
      exact hmc1

theorem ApplyMarshalFlags_flags_demanded_witness :
    (ClientTest.ctx.Lookup "Nested").map Model.CanMarshal = some false
      ∧ ∃ m, ClientTest.ctx.ApplyMarshalFlags.Lookup "Nested" = some m
          ∧ m.flag .marshal = true :=
  ⟨by decide,
    ApplyMarshalFlags_flags_demanded ClientTest.ctx .marshal "Nested"
      ⟨"Bar", Or.inl ⟨ClientTest.bar, by decide, by decide⟩,
        Relation.ReflTransGen.single
          ⟨ClientTest.bar, { Name := "nested", Type_ := "Nested", IsMessage := true },
            by decide, by decide, by decide, by decide, ClientTest.nested, by decide⟩⟩⟩

/-- C2. For a relative directory `d` made of one or more non-empty segments
other than `.` and `..` joined by single slashes, a prefix `p` and a stem `s`
without slash, and `ext` one of `.proto` and `.protodevel`:
`twirpFilename(p, d + "/" + s + ext) = d + "/" + p + "." + s + ".twirp.swift"`. -/
theorem twirpFilename_idl_file (segs : List String) (p s ext : String)
    (hsegs : segs ≠ [])
    (hseg : ∀ seg ∈ segs, seg ≠ "" ∧ seg ≠ "." ∧ seg ≠ ".." ∧ '/' ∉ seg.data)
    (hp : '/' ∉ p.data) (hs : '/' ∉ s.data)
    (hext : ext = ".proto" ∨ ext = ".protodevel") :
    twirpFilename p (String.intercalate "/" segs ++ "/" ++ s ++ ext)
      = some (String.intercalate "/" segs ++ "/" ++ p ++ "." ++ s ++ ".twirp.swift") := by
  obtain ⟨a, l, rfl⟩ := List.exists_cons_of_ne_nil hsegs
  rcases hext with h | h
  · rw [h]
    exact twirpFilename_in_clean_dir a l p s "proto".data hseg hp hs (by decide) (by decide)
      (Or.inl rfl)
  · rw [h]
    exact twirpFilename_in_clean_dir a l p s "protodevel".data hseg hp hs (by decide)
      (by decide) (Or.inr rfl)

theorem twirpFilename_idl_file_witness :
    twirpFilename "svc" "pkg/foo.proto" = some "pkg/svc.foo.twirp.swift" :=
  twirpFilename_idl_file ["pkg"] "svc" "foo" ".proto" (by decide) (by decide) (by decide)
    (by decide) (by decide)

/-- C3, the code at the failing input: for `pkg/foo.txt`, whose extension is
not recognised, `twirpFilename` drops the base name altogether and returns
`pkg/svc..twirp.swift`, not `pkg/svc.foo.txt.twirp.swift`. -/
theorem twirpFilename_unrecognised_ext_drops_base :
    twirpFilename "svc" "pkg/foo.txt" = some "pkg/svc..twirp.swift"
      ∧ twirpFilename "svc" "pkg/foo.txt"
          ≠ some (GoPath.Join [GoPath.Dir "pkg/foo.txt",
              "svc" ++ "." ++ GoPath.Base "pkg/foo.txt" ++ ".twirp.swift"])
      ∧ GoPath.Join [GoPath.Dir "pkg/foo.txt",
          "svc" ++ "." ++ GoPath.Base "pkg/foo.txt" ++ ".twirp.swift"]
          = "pkg/svc.foo.txt.twirp.swift" := by
  decide

/-- C7, as stated, fails: for `pkg/foo.txt` the result of `dartFilename` keeps
the directory, so it contains a slash. -/
theorem dartFilename_keeps_directory_of_other_ext :
    dartFilename "pkg/foo.txt" = some "pkg/foo.txt.model.swift"
      ∧ '/' ∈ ("pkg/foo.txt.model.swift" : String).data := by
  decide

/-- C7, amended. For every input path `name`, `dartFilename` returns a name
ending in `.model.swift`; the result contains a slash exactly when `name`
contains one and the extension of `name` is not a recognised IDL extension, in
which case the result is `name + ".model.swift"`. -/
theorem dartFilename_bare_iff (name : String) :
    ∃ r, dartFilename name = some r
      ∧ ".model.swift".data <:+ r.data
      ∧ ('/' ∈ r.data ↔
          '/' ∈ name.data ∧ ¬ (GoPath.Ext name = ".proto" ∨ GoPath.Ext name = ".protodevel"))
      ∧ (¬ (GoPath.Ext name = ".proto" ∨ GoPath.Ext name = ".protodevel")
          → r = name ++ ".model.swift") := by
  have hsuffix : '/' ∉ ".model.swift".data := by decide
  by_cases h : GoPath.Ext name = ".proto" ∨ GoPath.Ext name = ".protodevel"
  · obtain ⟨stem, hstem, hr⟩ := dartFilename_recognised name h
    refine ⟨_, hr, ?_, ?_, fun hn => absurd h hn⟩
    · rw [String.data_append]
      exact List.suffix_append _ _
    · rw [String.data_append]
      constructor
      · intro hmem
        rcases List.mem_append.1 hmem with h1 | h1
        · exact absurd h1 hstem
        · exact absurd h1 hsuffix
      · intro hmem
        exact absurd h hmem.2
  · refine ⟨_, dartFilename_unrecognised name h, ?_, ?_, fun _ => rfl⟩
    · rw [String.data_append]
      exact List.suffix_append _ _
    · rw [String.data_append]
      constructor
      · intro hmem
        rcases List.mem_append.1 hmem with h1 | h1
        · exact ⟨h1, h⟩
        · exact absurd h1 hsuffix
      · intro hmem
        exact List.mem_append_left _ hmem.1

theorem dartFilename_bare_iff_witness :
    (∃ r, dartFilename "pkg/foo.proto" = some r
      ∧ ".model.swift".data <:+ r.data
      ∧ ('/' ∈ r.data ↔ '/' ∈ ("pkg/foo.proto" : String).data
          ∧ ¬ (GoPath.Ext "pkg/foo.proto" = ".proto" ∨ GoPath.Ext "pkg/foo.proto" = ".protodevel"))
      ∧ (¬ (GoPath.Ext "pkg/foo.proto" = ".proto" ∨ GoPath.Ext "pkg/foo.proto" = ".protodevel")
          → r = "pkg/foo.proto" ++ ".model.swift"))
    ∧ (∃ r, dartFilename "pkg/foo.txt" = some r
      ∧ ".model.swift".data <:+ r.data
      ∧ ('/' ∈ r.data ↔ '/' ∈ ("pkg/foo.txt" : String).data
          ∧ ¬ (GoPath.Ext "pkg/foo.txt" = ".proto" ∨ GoPath.Ext "pkg/foo.txt" = ".protodevel"))
      ∧ (¬ (GoPath.Ext "pkg/foo.txt" = ".proto" ∨ GoPath.Ext "pkg/foo.txt" = ".protodevel")
          → r = "pkg/foo.txt" ++ ".model.swift")) :=
  ⟨dartFilename_bare_iff "pkg/foo.proto", dartFilename_bare_iff "pkg/foo.txt"⟩

/-- C4, as stated, fails: with three eligible files of which the second fails,
the response carries the error of file two together with the record of file
one, so its File list is not empty. -/
theorem generate_error_keeps_earlier_records :
    generate FailFastExample.lib FailFastExample.render FailFastExample.req
        = some { Error := some "two.proto: unsupported",
                 File := [{ Name := some "one.proto", Content := some "// generated" }] }
      ∧ ¬ ((generate FailFastExample.lib FailFastExample.render FailFastExample.req).map
            CodeGeneratorResponse.File = some []) := by
  decide

/-- C4, amended. On a request for which the set-up of the generator succeeds,
if the renderer fails on an eligible file `f` and succeeds on every eligible
file before it, the response of `generate` has `Error` set to the message of
that first failure and its File list holds exactly the records of the eligible
files before `f`, in request order; no record of `f` or of a later file is
included.  The files up to `f` carry their name, which `generate`
dereferences. -/
theorem generate_first_failure {G : Type} (lib : GogoGenerator G)
    (CreateClientAPI : FileDescriptorProto → G → Except String CodeGeneratorResponse_File)
    (req : CodeGeneratorRequest) (gen : G)
    (pre post : List FileDescriptorProto) (f : FileDescriptorProto) (e : String)
    (hsetup : generateSetUp lib req = some gen)
    (hfiles : req.ProtoFile = pre ++ f :: post)
    (hnames : ∀ g ∈ pre, g.Name ≠ none) (hf : f.Name ≠ none)
    (hpre : ∀ g ∈ pre, eligibleFile g = true → ∃ cf, CreateClientAPI g gen = .ok cf)
    (helig : eligibleFile f = true) (hfail : CreateClientAPI f gen = .error e) :
    generate lib CreateClientAPI req
      = some { Error := some e,
               File := renderedFiles (fun g => CreateClientAPI g gen) pre } := by
  unfold generate
  rw [hsetup]
  simp only []
  rw [hfiles, generateLoop_first_failure (fun g => CreateClientAPI g gen) pre post f e _
    hnames hf hpre helig hfail]
  simp

theorem generate_first_failure_witness :
    generate FailFastExample.lib FailFastExample.render FailFastExample.req
      = some { Error := some "two.proto: unsupported",
               File := renderedFiles
                 (fun g => FailFastExample.render g FailFastExample.req)
                 [FailFastExample.file "one.proto"] } :=
  generate_first_failure FailFastExample.lib FailFastExample.render FailFastExample.req
    FailFastExample.req
    [FailFastExample.file "one.proto"] [FailFastExample.file "three.proto"]
    (FailFastExample.file "two.proto") "two.proto: unsupported"
    (by decide) (by decide) (by decide) (by decide)
    (by
      intro g hg _
      rw [List.mem_singleton.1 hg]
      exact ⟨_, rfl⟩)
    (by decide) rfl

/-- C5. For a non-empty list of pairs whose keys and values contain neither
`,` nor `=`, `getParameters` on the parameter string `k_1=v_1,...,k_n=v_n`
returns a mapping whose key set is exactly the keys of the pairs and that maps
each key to the value of the last pair carrying that key. -/
theorem getParameters_key_value_pairs (req : CodeGeneratorRequest)
    (pairs : List (String × String)) (hne : pairs ≠ [])
    (hclean : ∀ kv ∈ pairs,
      ',' ∉ kv.1.data ∧ '=' ∉ kv.1.data ∧ ',' ∉ kv.2.data ∧ '=' ∉ kv.2.data)
    (hparam : req.Parameter
      = some (String.intercalate "," (pairs.map (fun kv => kv.1 ++ "=" ++ kv.2)))) :
    ∃ params, getParameters req = some params
      ∧ (∀ k, k ∈ params.keys ↔ k ∈ pairs.map Prod.fst)
      ∧ (∀ k, params.get k = (pairs.reverse.find? (fun kv => kv.1 = k)).map Prod.snd) := by
  obtain ⟨kv, rest, rfl⟩ := List.exists_cons_of_ne_nil hne
  have hcomma : ∀ b ∈ (kv :: rest).map (fun kv => kv.1 ++ "=" ++ kv.2), ',' ∉ b.data := by
    intro b hb
    obtain ⟨x, hx, rfl⟩ := List.mem_map.1 hb
    have := hclean x hx
    simp [String.data_append, this.1, this.2.2.1]
  have hsplit : stringsSplit
      (String.intercalate "," ((kv :: rest).map (fun kv => kv.1 ++ "=" ++ kv.2))) ','
      = (kv :: rest).map (fun kv => kv.1 ++ "=" ++ kv.2) := by
    simp only [List.map_cons] at hcomma ⊢
    exact stringsSplit_intercalate ',' _ _ (hcomma _ (by simp))
      (fun b hb => hcomma b (by simp [hb]))
  refine ⟨(kv :: rest).foldl (fun m kv => m.set kv.1 kv.2) [], ?_, ?_, ?_⟩
  · unfold getParameters
    rw [hparam]
    simp only [hsplit]
    exact getParametersLoop_pairs _ _ (fun x hx => ⟨(hclean x hx).2.1, (hclean x hx).2.2.2⟩)
  · intro k
    rw [Params.mem_keys_foldl]
    simp [Params.keys]
  · intro k
    rw [Params.get_foldl]
    simp [Params.get]

theorem getParameters_key_value_pairs_witness :
    ∃ params, getParameters ⟨[], some "a=1,b=2", []⟩ = some params
      ∧ (∀ k, k ∈ params.keys ↔ k ∈ ["a", "b"])
      ∧ (∀ k, params.get k
          = ([("a", "1"), ("b", "2")].reverse.find? (fun kv => kv.1 = k)).map Prod.snd) :=
  getParameters_key_value_pairs ⟨[], some "a=1,b=2", []⟩ [("a", "1"), ("b", "2")]
    (by decide) (by decide) (by decide)

/-- C6. When the parameter string is present and one of its comma-separated
pieces contains no `=`, `getParameters` fails (index out of range) and returns
no mapping, whatever the other pieces are. -/
theorem getParameters_piece_without_eq_fails (req : CodeGeneratorRequest)
    (pieces : List String) (hne : pieces ≠ [])
    (hpieces : ∀ piece ∈ pieces, ',' ∉ piece.data)
    (hparam : req.Parameter = some (String.intercalate "," pieces))
    (hbad : ∃ piece ∈ pieces, '=' ∉ piece.data) :
    getParameters req = none := by
  obtain ⟨p, rest, rfl⟩ := List.exists_cons_of_ne_nil hne
  have hsplit : stringsSplit (String.intercalate "," (p :: rest)) ',' = p :: rest :=
    stringsSplit_intercalate ',' p rest (hpieces p (by simp))
      (fun b hb => hpieces b (by simp [hb]))
  unfold getParameters
  rw [hparam]
  simp only [hsplit]
  exact getParametersLoop_missing_eq _ _ hbad

theorem getParameters_piece_without_eq_fails_witness :
    getParameters ⟨[], some "a=1,b", []⟩ = none ∧ getParameters ⟨[], some "", []⟩ = none :=
  ⟨getParameters_piece_without_eq_fails ⟨[], some "a=1,b", []⟩ ["a=1", "b"]
      (by decide) (by decide) (by decide) (by decide),
   getParameters_piece_without_eq_fails ⟨[], some "", []⟩ [""]
      (by decide) (by decide) (by decide) (by decide)⟩

/-- C8. `ApplyMarshalFlags` is idempotent: calling it twice leaves every Model
of the Context, hence both flags of every Model, as one call does. -/
theorem ApplyMarshalFlags_idempotent (ctx : APIContext) :
    ctx.ApplyMarshalFlags.ApplyMarshalFlags = ctx.ApplyMarshalFlags := by
  obtain ⟨hsvc, _, hseed, hclosed⟩ := ApplyMarshalFlags_spec ctx
  have h0 : seedFlags ctx.ApplyMarshalFlags.Services ctx.ApplyMarshalFlags.Models
      = ctx.ApplyMarshalFlags.Models := by
    rw [hsvc]
    exact seedFlags_of_seeded _ _ hseed
  have h1 : ∀ k, propagateFlags .marshal k ctx.ApplyMarshalFlags.Models
      = ctx.ApplyMarshalFlags.Models :=
    fun k => propagateFlags_of_closed _ k _ (hclosed .marshal)
  have h2 : ∀ k, propagateFlags .unmarshal k ctx.ApplyMarshalFlags.Models
      = ctx.ApplyMarshalFlags.Models :=
    fun k => propagateFlags_of_closed _ k _ (hclosed .unmarshal)
  show ({ ctx.ApplyMarshalFlags with
    Models := propagateFlags .unmarshal _ (propagateFlags .marshal _
      (seedFlags ctx.ApplyMarshalFlags.Services ctx.ApplyMarshalFlags.Models)) } : APIContext)
    = ctx.ApplyMarshalFlags
  rw [h0, h1, h2]

/-- C9. Isolation: in a Context with unique Model names, a registered Model
whose flag is false beforehand and that is not demanded (it is not the seed
type of any method and is not reachable through message-typed fields resolving
to registered Models from a Model that has the flag or is a seed type) still
has the flag false after `ApplyMarshalFlags`; `fl` selects `CanMarshal` with
`InputType` or `CanUnmarshal` with `OutputType`.  A type name that is not
registered stays unregistered, so a field of that type propagates nothing. -/
theorem ApplyMarshalFlags_isolation (ctx : APIContext) (fl : FlagKind) (n : String) (m : Model)
    (hu : ctx.UniqueNames) (hm : ctx.Lookup n = some m) (_hflag : m.flag fl = false)
    (hnd : ¬ ctx.Demanded fl n) :
    (∃ m1, ctx.ApplyMarshalFlags.Lookup n = some m1 ∧ m1.flag fl = false)
      ∧ ∀ k, ctx.Lookup k = none → ctx.ApplyMarshalFlags.Lookup k = none := by
  have hj := ApplyMarshalFlags_justified ctx hu fl
  constructor
  · obtain ⟨m1, hm1, _⟩ := (lookupModel_grows hj.1 n).1 m hm
    refine ⟨m1, hm1, ?_⟩
    cases hf : m1.flag fl with
    | false => rfl
    | true =>
      have := hj.2 m1 (lookupModel_mem hm1) hf
      rw [lookupModel_name hm1] at this
      exact absurd this hnd
  · intro k hk
    cases hk1 : ctx.ApplyMarshalFlags.Lookup k with
    | none => rfl
    | some m1 =>
      obtain ⟨m0, hm0, _⟩ := (lookupModel_grows hj.1 k).2 m1 hk1
      exact absurd (hm0.symm.trans hk) (by simp)

theorem ApplyMarshalFlags_isolation_witness :
    (∃ m1, ClientTest.ctx.ApplyMarshalFlags.Lookup "Baz" = some m1
        ∧ m1.flag .marshal = false)
      ∧ ∀ k, ClientTest.ctx.Lookup k = none → ClientTest.ctx.ApplyMarshalFlags.Lookup k = none :=
  ApplyMarshalFlags_isolation ClientTest.ctx .marshal "Baz" ClientTest.baz
    ClientTest.ctx_unique (by decide) (by decide) ClientTest.baz_not_demanded

/-- C10. Monotonicity: every Model of the Context keeps its place and name
through `ApplyMarshalFlags`, and a flag that is true before the call is true
after it. -/
theorem ApplyMarshalFlags_monotone (ctx : APIContext) (i : Nat) (m : Model)
    (h : ctx.Models[i]? = some m) :
    ∃ m1, ctx.ApplyMarshalFlags.Models[i]? = some m1 ∧ m1.Name = m.Name
      ∧ (m.CanMarshal = true → m1.CanMarshal = true)
      ∧ (m.CanUnmarshal = true → m1.CanUnmarshal = true) := by
  obtain ⟨m1, hm1, hg⟩ := forall₂_getElem? (ApplyMarshalFlags_spec ctx).2.1 i h
  exact ⟨m1, hm1, hg.1, hg.2.2.1, hg.2.2.2⟩

theorem ApplyMarshalFlags_monotone_witness :
    (∃ m1, ClientTest.ctx.ApplyMarshalFlags.Models[1]? = some m1 ∧ m1.Name = "Bar"
        ∧ m1.CanMarshal = true)
      ∧ (∃ m2, ClientTest.ctx.ApplyMarshalFlags.Models[2]? = some m2 ∧ m2.Name = "Baz"
        ∧ m2.CanUnmarshal = true) := by
  obtain ⟨m1, h1, h2, h3, _⟩ :=
    ApplyMarshalFlags_monotone ClientTest.ctx 1 ClientTest.bar (by decide)
  obtain ⟨m2, g1, g2, _, g4⟩ :=
    ApplyMarshalFlags_monotone ClientTest.ctx 2 ClientTest.baz (by decide)
  exact ⟨⟨m1, h1, h2, h3 rfl⟩, ⟨m2, g1, g2, g4 rfl⟩⟩

/-- C11. Cycle safety: on every Context, cyclic field graphs included,
`ApplyMarshalFlags` returns with both flags at a fixed point (no flagged Model
has a registered message-typed field type that is not flagged), and each of
its propagation loops ends by a pass that changes nothing, not by its round
budget: a larger budget gives the same result, and one more pass over the
result has an empty work set. -/
theorem ApplyMarshalFlags_reaches_fixed_point (ctx : APIContext) :
    (∀ fl, ClosedUnder fl ctx.ApplyMarshalFlags.Models)
      ∧ (∀ fl, propagatePass fl ctx.ApplyMarshalFlags.Models
          = (ctx.ApplyMarshalFlags.Models, []))
      ∧ (∀ fl (ms : List Model) rounds, ms.length + 1 ≤ rounds →
          propagateFlags fl rounds ms = propagateFlags fl (ms.length + 1) ms
            ∧ propagatePass fl (propagateFlags fl rounds ms)
                = (propagateFlags fl rounds ms, [])) := by
  have hclosed := (ApplyMarshalFlags_spec ctx).2.2.2
  refine ⟨hclosed, fun fl => propagatePass_of_closed (hclosed fl), ?_⟩
  intro fl ms rounds hr
  have hu := unflagged_le_length fl ms
  have heq : propagateFlags fl rounds ms = propagateFlags fl (ms.length + 1) ms :=
    propagateFlags_rounds fl _ _ ms (by omega) (by omega)
  refine ⟨heq, ?_⟩
  rw [heq]
  exact propagateFlags_stable fl ms

theorem ApplyMarshalFlags_reaches_fixed_point_witness :
    (∀ fl, ClosedUnder fl CycleExample.ctx.ApplyMarshalFlags.Models)
      ∧ CycleExample.ctx.ApplyMarshalFlags.Models.map
          (fun m => (m.Name, m.CanMarshal, m.CanUnmarshal))
        = [("Node", true, true), ("Ping", true, true), ("Pong", true, true)] :=
  ⟨(ApplyMarshalFlags_reaches_fixed_point CycleExample.ctx).1, by decide⟩

/-- C14, as stated, fails: `twirpFilename` does not keep the directory text of
`a//b/foo.proto`, `./foo.proto` and `a/../b/foo.proto`; the directory comes
back cleaned. -/
theorem twirpFilename_directory_not_preserved :
    twirpFilename "svc" "a//b/foo.proto" = some "a/b/svc.foo.twirp.swift"
      ∧ (GoPath.Split "a//b/foo.proto").1 = "a//b/"
      ∧ twirpFilename "svc" "a//b/foo.proto"
          ≠ some ((GoPath.Split "a//b/foo.proto").1 ++ "svc.foo.twirp.swift")
      ∧ twirpFilename "svc" "./foo.proto" = some "svc.foo.twirp.swift"
      ∧ (GoPath.Split "./foo.proto").1 = "./"
      ∧ twirpFilename "svc" "a/../b/foo.proto" = some "b/svc.foo.twirp.swift"
      ∧ (GoPath.Split "a/../b/foo.proto").1 = "a/../b/" := by
  decide

/-- C14, amended. For every prefix without slash and every `fullPath`,
`twirpFilename` returns the directory component of `fullPath` in cleaned form
(`path.Clean` of the text up to and including the last slash: nothing when
that is `.`, `/` when it is the root, and otherwise the cleaned directory
followed by a slash), followed by the new base name
`prefix + "." + stem + ".twirp.swift"`, where `stem` has no slash.  The
original directory text is kept unchanged exactly when it already is that
cleaned form. -/
theorem twirpFilename_cleans_directory (pfx fullPath : String) (hp : '/' ∉ pfx.data) :
    ∃ stem, '/' ∉ stem.data
      ∧ twirpFilename pfx fullPath
        = some (GoPath.dirPrefix (GoPath.Clean (GoPath.Split fullPath).1)
            ++ (pfx ++ "." ++ stem ++ ".twirp.swift"))
      ∧ (twirpFilename pfx fullPath
          = some ((GoPath.Split fullPath).1 ++ (pfx ++ "." ++ stem ++ ".twirp.swift"))
        ↔ GoPath.dirPrefix (GoPath.Clean (GoPath.Split fullPath).1)
            = (GoPath.Split fullPath).1) := by
  obtain ⟨stem, hstem, hres⟩ := twirpFilename_cleaned_dir pfx fullPath hp
  refine ⟨stem, hstem, hres, ?_⟩
  rw [hres]
  constructor
  · intro e
    have e1 := congrArg String.data (Option.some.inj e)
    rw [String.data_append, String.data_append] at e1
    exact String.ext (List.append_left_inj _ |>.1 e1)
  · intro e
    rw [e]

theorem twirpFilename_cleans_directory_witness :
    (∃ stem, '/' ∉ stem.data
      ∧ twirpFilename "svc" "a//b/foo.proto"
        = some (GoPath.dirPrefix (GoPath.Clean (GoPath.Split "a//b/foo.proto").1)
            ++ ("svc" ++ "." ++ stem ++ ".twirp.swift"))
      ∧ (twirpFilename "svc" "a//b/foo.proto"
          = some ((GoPath.Split "a//b/foo.proto").1 ++ ("svc" ++ "." ++ stem ++ ".twirp.swift"))
        ↔ GoPath.dirPrefix (GoPath.Clean (GoPath.Split "a//b/foo.proto").1)
            = (GoPath.Split "a//b/foo.proto").1))
      ∧ GoPath.dirPrefix (GoPath.Clean (GoPath.Split "a//b/foo.proto").1) = "a/b/"
      ∧ GoPath.dirPrefix (GoPath.Clean (GoPath.Split "pkg/foo.proto").1) = "pkg/"
      ∧ GoPath.dirPrefix (GoPath.Clean (GoPath.Split "./foo.proto").1) = ""
      ∧ GoPath.dirPrefix (GoPath.Clean (GoPath.Split "a/../b/foo.proto").1) = "b/"
      ∧ twirpFilename "svc" "pkg/foo.proto" = some "pkg/svc.foo.twirp.swift" :=
  ⟨twirpFilename_cleans_directory "svc" "a//b/foo.proto" (by decide), by decide, by decide,
    by decide, by decide, by decide⟩

/-- C15. `twirpFilename` and `dartFilename` are total: for every prefix and
every input string both return a result, because the slice
`base[:len(base)-len(path.Ext(base))]` is within bounds for every `base`; and
whenever the extension of the input is `.proto` or `.protodevel`, the base
name has that same extension and ends with it. -/
theorem filename_functions_total (pfx name : String) :
    (∃ r, twirpFilename pfx name = some r)
      ∧ (∃ r, dartFilename name = some r)
      ∧ (∃ stem, sliceTo (GoPath.Base name)
          (((GoPath.Base name).length : Int) - ((GoPath.Ext (GoPath.Base name)).length : Int))
            = some stem)
      ∧ ((GoPath.Ext name = ".proto" ∨ GoPath.Ext name = ".protodevel") →
          GoPath.Ext (GoPath.Base name) = GoPath.Ext name
            ∧ (GoPath.Ext name).data <:+ (GoPath.Base name).data) := by
  refine ⟨twirpFilename_isSome pfx name, dartFilename_isSome name,
    ⟨_, sliceTo_base_ext (GoPath.Base name)⟩, ?_⟩
  intro h
  have hne : GoPath.Ext name ≠ "" := by
    rcases h with h | h <;> rw [h] <;> decide
  have heb := (GoPath.Base_Base_of_ext name hne).2
  refine ⟨heb, ?_⟩
  rw [← heb]
  exact GoPath.Ext_suffix _

theorem filename_functions_total_witness :
    ((∃ r, twirpFilename "svc" "dir/.protodevel" = some r)
      ∧ (∃ r, dartFilename "dir/.protodevel" = some r)
      ∧ (∃ stem, sliceTo (GoPath.Base "dir/.protodevel")
          (((GoPath.Base "dir/.protodevel").length : Int)
            - ((GoPath.Ext (GoPath.Base "dir/.protodevel")).length : Int)) = some stem)
      ∧ ((GoPath.Ext "dir/.protodevel" = ".proto" ∨ GoPath.Ext "dir/.protodevel" = ".protodevel") →
          GoPath.Ext (GoPath.Base "dir/.protodevel") = GoPath.Ext "dir/.protodevel"
            ∧ (GoPath.Ext "dir/.protodevel").data <:+ (GoPath.Base "dir/.protodevel").data))
      ∧ twirpFilename "svc" "dir/.protodevel" = some "dir/svc..twirp.swift"
      ∧ dartFilename "dir/.protodevel" = some ".model.swift"
      ∧ twirpFilename "svc" ".proto" = some "svc..twirp.swift"
      ∧ dartFilename ".proto" = some ".model.swift"
      ∧ twirpFilename "svc" "" = some "svc..twirp.swift"
      ∧ dartFilename "" = some ".model.swift"
      ∧ twirpFilename "svc" "dir/" = some "dir/svc..twirp.swift"
      ∧ dartFilename "dir/" = some "dir/.model.swift" :=
  ⟨filename_functions_total "svc" "dir/.protodevel", by decide, by decide, by decide, by decide,
    by decide, by decide, by decide, by decide⟩

/-- C16. For every name whose extension is `.proto` or `.protodevel`,
`dartFilename` discards the directory: `dartFilename(name) =
dartFilename(path.Base(name))`; for every name with any other extension the
full path is kept: `dartFilename(name) = name + ".model.swift"`. -/
theorem dartFilename_directory (name : String) :
    ((GoPath.Ext name = ".proto" ∨ GoPath.Ext name = ".protodevel") →
        dartFilename name = dartFilename (GoPath.Base name))
      ∧ (¬ (GoPath.Ext name = ".proto" ∨ GoPath.Ext name = ".protodevel") →
        dartFilename name = some (name ++ ".model.swift")) :=
  ⟨dartFilename_of_base name, dartFilename_unrecognised name⟩

theorem dartFilename_directory_witness :
    dartFilename "a/foo.proto" = dartFilename (GoPath.Base "a/foo.proto")
      ∧ dartFilename "a/foo.proto" = some "foo.model.swift"
      ∧ dartFilename "b/foo.proto" = some "foo.model.swift"
      ∧ dartFilename "a/foo.txt" = some ("a/foo.txt" ++ ".model.swift") :=
  ⟨(dartFilename_directory "a/foo.proto").1 (by decide), by decide, by decide,
    (dartFilename_directory "a/foo.txt").2 (by decide)⟩

/-- C17. For a parameter string that is the single piece `k=v=rest`, where `k`
and `v` contain neither `=` nor `,` and `rest` contains no `,`,
`getParameters` does not fail and returns the mapping with the one entry
`k: v`: everything from the second `=` on is dropped. -/
theorem getParameters_second_eq_dropped (req : CodeGeneratorRequest) (k v rest : String)
    (hk : '=' ∉ k.data ∧ ',' ∉ k.data) (hv : '=' ∉ v.data ∧ ',' ∉ v.data)
    (hrest : ',' ∉ rest.data)
    (hparam : req.Parameter = some (k ++ "=" ++ v ++ "=" ++ rest)) :
    ∃ params, getParameters req = some params
      ∧ params.keys = [k]
      ∧ ∀ k1, params.get k1 = if k = k1 then some v else none :=
  ⟨[(k, v)], getParameters_single_piece req k v rest hk hv hrest hparam, rfl,
    fun _ => rfl⟩

theorem getParameters_second_eq_dropped_witness :
    ∃ params, getParameters ⟨[], some "a=1=2", []⟩ = some params
      ∧ params.keys = ["a"]
      ∧ ∀ k1, params.get k1 = if "a" = k1 then some "1" else none :=
  getParameters_second_eq_dropped ⟨[], some "a=1=2", []⟩ "a" "1" "2" (by decide) (by decide)
    (by decide) (by decide)

